import Mathlib

/-!
Verification development for the gofastersql row-decoding core.

The Go sources are shallowly embedded:

* a column value handed over by the SQL driver is `Input := Option Bytes`
  (`none` is the SQL NULL / nil byte slice, `some bs` a byte buffer);
* machine integers are `Nat`/`Int` with explicit range checks against
  `2^bits`, mirroring the checks of `strconv.ParseUint` / `ParseInt`;
* Go `float32`/`float64` destinations are represented by exact rationals
  (`FVal`): the claims under study only depend on the parsers' success /
  error classification, never on rounded float values;
* destination memory cells are values of the universal type `Val`; a byte
  slice cell records whether it aliases the driver's scan buffer
  (`.borrowed`) or owns its bytes (`.owned`), which embeds the lifetime
  distinction between `sql.RawBytes` and `[]byte` destinations;
* a Go panic (such as indexing `in[0]` on an empty slice) is the `none`
  result of an `Option`-valued function.
-/

namespace GoFasterSQL

/-- A byte buffer: the driver hands each column over as a byte sequence. -/
abbrev Bytes := List Nat

/-- A column value: `none` is SQL NULL (a nil `[]byte`), `some bs` a buffer. -/
abbrev Input := Option Bytes

/-- ASCII digit test, `'0' ≤ c ≤ '9'`. -/
def isDigitB (c : Nat) : Bool := 48 ≤ c && c ≤ 57

/-- Error classification used by the strconv-style parsers: Go's
`strconv.ErrRange` ("value out of range") and `strconv.ErrSyntax`
("invalid syntax", the spec's "malformed literal"). -/
inductive EKind where
  | outOfRange
  | malformed
  deriving DecidableEq, Repr

/-- A per-column conversion error: either a strconv-style numeric error
(carrying the Go function name and offending literal) or a `time.Parse`
error. These are the only errors the scalar parsers produce. -/
inductive ConvErr where
  | numErr (fn : String) (lit : Bytes) (kind : EKind)
  | timeErr (lit : Bytes) (msg : String)
  deriving DecidableEq, Repr

/-- The kind of a conversion error (`time.Parse` failures are malformed
literals in the spec's taxonomy). -/
def ConvErr.kind : ConvErr → EKind
  | .numErr _ _ k => k
  | .timeErr _ _ => .malformed

/-- Render a byte buffer as a string (for error messages). -/
def bytesToString (bs : Bytes) : String :=
  String.mk (bs.map (fun n => Char.ofNat n))

/-- Human-readable message of a conversion error, following Go's
`strconv.NumError` / `time.ParseError` formats (escaping inside the
quoted literal is elided). -/
def ConvErr.msg : ConvErr → String
  | .numErr fn lit k =>
      "strconv." ++ fn ++ ": parsing \"" ++ bytesToString lit ++ "\": " ++
        (match k with
         | .outOfRange => "value out of range"
         | .malformed => "invalid syntax")
  | .timeErr lit m =>
      "parsing time \"" ++ bytesToString lit ++ "\": " ++ m

/-- The digit-accumulation loop of Go's `strconv.ParseUint` (base 10).
`maxVal = 2^bits - 1`; `cutoff` is Go's pre-multiplication overflow guard
`maxUint64/10 + 1`. A non-digit stops with a syntax error; exceeding
`maxVal` stops with a range error, exactly in Go's check order. -/
def puLoop (maxVal cutoff : Nat) : Bytes → Nat → Except EKind Nat
  | [], n => .ok n
  | c :: rest, n =>
      if ¬ isDigitB c then .error .malformed
      else if cutoff ≤ n then .error .outOfRange
      else
        let n1 := n * 10 + (c - 48)
        if maxVal < n1 then .error .outOfRange
        else puLoop maxVal cutoff rest n1

/-- Go's `strconv.ParseUint(s, 10, bits)`: empty input or a sign prefix is
a syntax error; the value must fit in `bits` bits. -/
def parseUintGo (s : Bytes) (bits : Nat) : Except EKind Nat :=
  match s with
  | [] => .error .malformed
  | _ => puLoop (2 ^ bits - 1) ((2 ^ 64 - 1) / 10 + 1) s 0

/-- Go's `strconv.ParseInt(s, 10, bits)`: optional leading sign, then the
`ParseUint` loop; the signed value must lie in
`[-2^(bits-1), 2^(bits-1) - 1]`. -/
def parseIntGo (s : Bytes) (bits : Nat) : Except EKind Int :=
  match s with
  | [] => .error .malformed
  | c0 :: rest =>
      let neg := c0 = 45
      let body := if c0 = 43 ∨ c0 = 45 then rest else s
      match parseUintGo body bits with
      | .error e => .error e
      | .ok un =>
          let cutoff := 2 ^ (bits - 1)
          if ¬ neg ∧ cutoff ≤ un then .error .outOfRange
          else if neg ∧ cutoff < un then .error .outOfRange
          else .ok (if neg then -(un : Int) else (un : Int))

/-- The value stored in a float destination. Machine floats are embedded
as exact rationals; `inf`/`nan` cover Go's special literals. Rounding to
the nearest representable float is not modelled (no claim depends on the
numeric value of a parsed float). -/
inductive FVal where
  | finite (q : ℚ)
  | inf (neg : Bool)
  | nan
  deriving DecidableEq

/-- Lower-case ASCII of a byte. -/
def lowerB (c : Nat) : Nat := if 65 ≤ c ∧ c ≤ 90 then c + 32 else c

/-- Mantissa scan for the decimal float syntax: consumes digits with at
most one decimal point, returning (digits value, number of digits, number
of digits after the point if a point was seen, rest). -/
def scanMantissa : Bytes → Nat → Nat → Bool → Nat → (Nat × Nat × Nat × Bool × Bytes)
  | [], m, nd, sawDot, frac => (m, nd, frac, sawDot, [])
  | c :: rest, m, nd, sawDot, frac =>
      if isDigitB c then
        scanMantissa rest (m * 10 + (c - 48)) (nd + 1) sawDot (if sawDot then frac + 1 else frac)
      else if c = 46 ∧ ¬ sawDot then
        scanMantissa rest m nd true frac
      else (m, nd, frac, sawDot, c :: rest)

/-- Model of Go's `strconv.ParseFloat(s, bits)` restricted to the decimal
syntax and the `inf`/`nan` specials (hexadecimal floats and `_` digit
separators, which Go also accepts, are treated as malformed; no claim
depends on them). The result is the exact decimal value; overflow beyond
the largest finite float of the target width is a range error, mirroring
Go's out-of-range report. -/
def parseFloatGo (s : Bytes) (bits : Nat) : Except EKind FVal :=
  match s with
  | [] => .error .malformed
  | _ =>
    let lower := s.map lowerB
    if lower = [110, 97, 110] then .ok .nan
    else
      let (neg, body) :=
        match s with
        | 43 :: rest => (false, rest)
        | 45 :: rest => (true, rest)
        | _ => (false, s)
      let lbody := body.map lowerB
      if lbody = [105, 110, 102] ∨ lbody = [105, 110, 102, 105, 110, 105, 116, 121] then
        .ok (.inf neg)
      else
        match scanMantissa body 0 0 false 0 with
        | (m, nd, frac, _, rest) =>
          if nd = 0 then .error .malformed
          else
            match rest with
            | [] => floatFromParts bits neg m nd frac 0
            | e :: erest =>
                if e = 101 ∨ e = 69 then
                  match erest with
                  | [] => .error .malformed
                  | e0 :: etail =>
                      let eneg := e0 = 45
                      let ebody := if e0 = 43 ∨ e0 = 45 then etail else erest
                      if ebody = [] ∨ ebody.any (fun c => ¬ isDigitB c) then .error .malformed
                      else
                        let ev : Nat := ebody.foldl (fun a c => a * 10 + (c - 48)) 0
                        floatFromParts bits neg m nd frac (if eneg then -(ev : Int) else (ev : Int))
                else .error .malformed
where
  /-- Assemble `±m * 10^(exp - frac)` with Go-style overflow / underflow
  guards on the decimal exponent before any large power is computed. -/
  floatFromParts (bits : Nat) (neg : Bool) (m nd frac : Nat) (exp : Int) : Except EKind FVal :=
    if m = 0 then .ok (.finite 0)
    else
      let e10 : Int := exp - (frac : Int) + (nd : Int)
      if 310 < e10 then .error .outOfRange
      else if e10 < -340 then .ok (.finite 0)
      else
        let q : ℚ := (m : ℚ) * (10 : ℚ) ^ (exp - (frac : Int))
        let maxF : ℚ :=
          if bits = 32 then ((2 ^ 24 - 1 : ℚ) * 2 ^ 104) else ((2 ^ 53 - 1 : ℚ) * 2 ^ 971)
        if maxF < |q| then .error .outOfRange
        else .ok (.finite (if neg then -q else q))

/-- The provenance-tagged value of a Go byte-slice cell: nil, a borrowed
window into the cursor's scan buffer (`sql.RawBytes` semantics), or an
owned copy (`[]byte` filled by `convByteArray`). -/
inductive BytesVal where
  | nilSlice
  | borrowed (bs : Bytes)
  | owned (bs : Bytes)
  deriving DecidableEq, Repr

/-- A destination memory cell. `nullV` is a nulltypes wrapper struct
`{IsNull, Val}`, treated as one compound cell (the Go converters always
write both parts through the same struct pointer). -/
inductive Val where
  | uintV (n : Nat)
  | intV (n : Int)
  | floatV (f : FVal)
  | boolV (b : Bool)
  | strV (s : Bytes)
  | bytesV (b : BytesVal)
  | timeV (ns : Int)
  | nullV (isNull : Bool) (v : Val)
  deriving DecidableEq

/-- `convUNum[T]` from the source: NULL writes 0, otherwise
`strconv.ParseUint`; an error leaves the destination untouched. -/
def convUNum (bits : Nat) (i : Input) (v : Val) : Val × Option ConvErr :=
  match i with
  | none => (.uintV 0, none)
  | some bs =>
      match parseUintGo bs bits with
      | .error k => (v, some (.numErr "ParseUint" bs k))
      | .ok n => (.uintV n, none)

/-- `convINum[T]` from the source. -/
def convINum (bits : Nat) (i : Input) (v : Val) : Val × Option ConvErr :=
  match i with
  | none => (.intV 0, none)
  | some bs =>
      match parseIntGo bs bits with
      | .error k => (v, some (.numErr "ParseInt" bs k))
      | .ok n => (.intV n, none)

/-- `convFloat[T]` from the source. -/
def convFloat (bits : Nat) (i : Input) (v : Val) : Val × Option ConvErr :=
  match i with
  | none => (.floatV (.finite 0), none)
  | some bs =>
      match parseFloatGo bs bits with
      | .error k => (v, some (.numErr "ParseFloat" bs k))
      | .ok f => (.floatV f, none)

/-- `convString`: `*(*string)(p) = string(in)` — always writes; a nil
slice yields the empty string. -/
def convString (i : Input) (_v : Val) : Val × Option ConvErr :=
  match i with
  | none => (.strV [], none)
  | some bs => (.strV bs, none)

/-- `convRawBytes`: `*(*sql.RawBytes)(p) = in` — stores the buffer itself
(a borrowed window), or nil. -/
def convRawBytes (i : Input) (_v : Val) : Val × Option ConvErr :=
  match i with
  | none => (.bytesV .nilSlice, none)
  | some bs => (.bytesV (.borrowed bs), none)

/-- `convByteArray`: NULL returns early leaving the destination
untouched; otherwise allocates a fresh buffer and copies (an owned
value). -/
def convByteArray (i : Input) (v : Val) : Val × Option ConvErr :=
  match i with
  | none => (v, none)
  | some bs => (.bytesV (.owned bs), none)

/-- `convBool`: NULL writes false; otherwise `in[0] == '1'` — indexing a
non-nil *empty* buffer is a Go panic, the `none` result. -/
def convBool (i : Input) (_v : Val) : Option (Val × Option ConvErr) :=
  match i with
  | none => some (.boolV false, none)
  | some [] => none
  | some (c :: _) => some (.boolV (c == 49), none)

/-- View a Lean string literal as driver bytes (used for concrete
inputs in witnesses). -/
def strBytes (s : String) : Bytes := s.data.map Char.toNat

/-- Days from the Unix epoch to the Gregorian date `y-m-d` (proleptic,
matching Go's absolute-time computation in package `time`). -/
def daysFromCivil (y : Int) (m d : Nat) : Int :=
  let y1 : Int := if m ≤ 2 then y - 1 else y
  let era : Int := Int.fdiv y1 400
  let yoe : Int := y1 - era * 400
  let mp : Nat := if 2 < m then m - 3 else m + 9
  let doy : Int := ((153 * mp + 2) / 5 + d - 1 : Nat)
  let doe : Int := yoe * 365 + Int.fdiv yoe 4 - Int.fdiv yoe 100 + doy
  era * 146097 + doe - 719468

/-- Days in a Gregorian month (Go's `daysIn`). -/
def daysInMonth (y : Int) (m : Nat) : Nat :=
  if m = 2 then
    if y % 4 = 0 ∧ (y % 100 ≠ 0 ∨ y % 400 = 0) then 29 else 28
  else if m = 4 ∨ m = 6 ∨ m = 9 ∨ m = 11 then 30
  else 31

/-- Read exactly `n` ASCII digits, returning their value and the rest. -/
def takeDigits : Nat → Bytes → Option (Nat × Bytes)
  | 0, bs => some (0, bs)
  | _ + 1, [] => none
  | n + 1, c :: rest =>
      if isDigitB c then
        (takeDigits n rest).map (fun p => ((c - 48) * 10 ^ n + p.1, p.2))
      else none

/-- Expect one literal byte. -/
def expectByte (c : Nat) : Bytes → Option Bytes
  | [] => none
  | b :: rest => if b = c then some rest else none

/-- Tokenize `YYYY-MM-DD HH:MM:SS[.f{1,9}]` (the layout
`2006-01-02 15:04:05.99999`); the whole input must be consumed. The
fraction value is scaled to nanoseconds. -/
def mysqlTokens (bs : Bytes) : Option (Nat × Nat × Nat × Nat × Nat × Nat × Nat) :=
  (takeDigits 4 bs).bind (fun py =>
  (expectByte 45 py.2).bind (fun r2 =>
  (takeDigits 2 r2).bind (fun pmo =>
  (expectByte 45 pmo.2).bind (fun r4 =>
  (takeDigits 2 r4).bind (fun pd =>
  (expectByte 32 pd.2).bind (fun r6 =>
  (takeDigits 2 r6).bind (fun ph =>
  (expectByte 58 ph.2).bind (fun r8 =>
  (takeDigits 2 r8).bind (fun pmi =>
  (expectByte 58 pmi.2).bind (fun r10 =>
  (takeDigits 2 r10).bind (fun ps =>
    match ps.2 with
    | [] => some (py.1, pmo.1, pd.1, ph.1, pmi.1, ps.1, 0)
    | 46 :: fs =>
        if fs ≠ [] ∧ fs.length ≤ 9 ∧ fs.all isDigitB then
          some (py.1, pmo.1, pd.1, ph.1, pmi.1, ps.1,
            (fs.foldl (fun a c => a * 10 + (c - 48)) 0) * 10 ^ (9 - fs.length))
        else none
    | _ => none)))))))))))

/-- Model of `time.Parse("2006-01-02 15:04:05.99999", s)` in UTC: fixed
two-digit fields, an optional fractional-second part of up to nine
digits, and Go's range validation of month / day / hour / minute /
second. The result is nanoseconds since the Unix epoch. -/
def timeParseMySQL (bs : Bytes) : Except ConvErr Int :=
  match mysqlTokens bs with
  | none => .error (.timeErr bs "cannot parse as \"2006-01-02 15:04:05.99999\"")
  | some (y, mo, d, h, mi, s, frac) =>
      if ¬ (1 ≤ mo ∧ mo ≤ 12) then .error (.timeErr bs "month out of range")
      else if ¬ (1 ≤ d ∧ d ≤ daysInMonth (y : Int) mo) then
        .error (.timeErr bs "day out of range")
      else if ¬ (h < 24 ∧ mi < 60 ∧ s < 60) then .error (.timeErr bs "out of range")
      else
        .ok ((daysFromCivil (y : Int) mo d * 86400 + h * 3600 + mi * 60 + s) * 1000000000
              + frac)

/-- The digit/dot scan at the top of `convTime`: walks the buffer keeping
the location of the single permitted dot; any other byte makes the
buffer "not a valid float". -/
def scanDigitsDot : Bytes → Nat → Option Nat → (Bool × Option Nat)
  | [], _, dotLoc => (true, dotLoc)
  | c :: rest, loc, dotLoc =>
      if isDigitB c then scanDigitsDot rest (loc + 1) dotLoc
      else if c ≠ 46 ∨ dotLoc.isSome then (false, dotLoc)
      else scanDigitsDot rest (loc + 1) (some loc)

/-- `convTime` from the source: NULL sets the destination to
`time.Unix(0,0).UTC()`; a buffer of digits with at most one dot is a Unix
timestamp with optional fractional seconds (fraction left-padded /
truncated to nine digits); anything else goes through
`time.Parse("2006-01-02 15:04:05.99999", ·)`. The destination holds
nanoseconds since the epoch. -/
def convTime (i : Input) (v : Val) : Val × Option ConvErr :=
  match i with
  | none => (.timeV 0, none)
  | some bs =>
      match scanDigitsDot bs 0 none with
      | (true, dotLoc) =>
          let nanoRes : Except EKind Int :=
            match dotLoc with
            | some dl =>
                let frac0 := bs.drop (dl + 1)
                let frac := if 9 < frac0.length then frac0.take 9 else frac0
                let nanoBuff := frac ++ List.replicate (9 - frac.length) 48
                parseIntGo nanoBuff 64
            | none => .ok 0
          match nanoRes with
          | .error k => (v, some (.numErr "ParseInt"
              (match dotLoc with
               | some dl =>
                   let frac0 := bs.drop (dl + 1)
                   let frac := if 9 < frac0.length then frac0.take 9 else frac0
                   frac ++ List.replicate (9 - frac.length) 48
               | none => []) k))
          | .ok fracNs =>
              let dl := match dotLoc with | some dl => dl | none => bs.length
              match parseIntGo (bs.take dl) 64 with
              | .error k => (v, some (.numErr "ParseInt" (bs.take dl) k))
              | .ok sec => (.timeV (sec * 1000000000 + fracNs), none)
      | (false, _) =>
          match timeParseMySQL bs with
          | .error e => (v, some e)
          | .ok ns => (.timeV ns, none)

/-- `null` from the source: record `IsNull = (in == nil)` in the wrapper
and hand the same input to the inner converter on the value slot. The
wrapper cell must actually be a nulltypes struct; anything else is the
type confusion the analyzer rules out (modelled as a panic). -/
def convNullable (inner : Input → Val → Option (Val × Option ConvErr))
    (i : Input) (v : Val) : Option (Val × Option ConvErr) :=
  match v with
  | .nullV _ x => (inner i x).map (fun r => (.nullV i.isNone r.1, r.2))
  | _ => none

/-- Identifier of a conversion function, one per entry of the source's
converter family (`conv*` and `cvN*`). -/
inductive ConvId where
  | u8C | u16C | u32C | u64C
  | i8C | i16C | i32C | i64C
  | f32C | f64C
  | strC | rawC | byteC | boolC | timeC
  | nU8C | nU16C | nU32C | nU64C
  | nI8C | nI16C | nI32C | nI64C
  | nF32C | nF64C
  | nStrC | nRawC | nByteC | nBoolC | nTimeC
  deriving DecidableEq, Repr

/-- The base (non-nullable) converter of a nullable wrapper converter, if
any: `cvNU8` delegates to `convUint8`, and so on. -/
def ConvId.baseOf : ConvId → Option ConvId
  | .nU8C => some .u8C
  | .nU16C => some .u16C
  | .nU32C => some .u32C
  | .nU64C => some .u64C
  | .nI8C => some .i8C
  | .nI16C => some .i16C
  | .nI32C => some .i32C
  | .nI64C => some .i64C
  | .nF32C => some .f32C
  | .nF64C => some .f64C
  | .nStrC => some .strC
  | .nRawC => some .rawC
  | .nByteC => some .byteC
  | .nBoolC => some .boolC
  | .nTimeC => some .timeC
  | _ => none

/-- Run a non-nullable converter; `none` is a Go panic (only `convBool`
on a non-nil empty buffer). Nullable identifiers are dispatched by
`runConv` and never reach this function. -/
def runScalar : ConvId → Input → Val → Option (Val × Option ConvErr)
  | .u8C, i, v => some (convUNum 8 i v)
  | .u16C, i, v => some (convUNum 16 i v)
  | .u32C, i, v => some (convUNum 32 i v)
  | .u64C, i, v => some (convUNum 64 i v)
  | .i8C, i, v => some (convINum 8 i v)
  | .i16C, i, v => some (convINum 16 i v)
  | .i32C, i, v => some (convINum 32 i v)
  | .i64C, i, v => some (convINum 64 i v)
  | .f32C, i, v => some (convFloat 32 i v)
  | .f64C, i, v => some (convFloat 64 i v)
  | .strC, i, v => some (convString i v)
  | .rawC, i, v => some (convRawBytes i v)
  | .byteC, i, v => some (convByteArray i v)
  | .boolC, i, v => convBool i v
  | .timeC, i, v => some (convTime i v)
  | _, _, _ => none

/-- Run any converter of the family on a column value and a destination
cell; `none` is a Go panic. A nullable identifier (`cvN*`) records
`IsNull` and delegates to its base converter, exactly as in the source. -/
def runConv (c : ConvId) (i : Input) (v : Val) : Option (Val × Option ConvErr) :=
  match c.baseOf with
  | some b => convNullable (runScalar b) i v
  | none => runScalar c i v

/-! ## The decoding plan and the row decoder (`convert`) -/

/-- The flags of `structFieldFlags` (`sffIsRawBytes`, `sffIsNullable`),
modelled as two booleans instead of a bitmask. -/
structure SFFlags where
  raw : Bool
  nullable : Bool
  deriving DecidableEq, Repr

/-- `structField`: one flattened leaf of the plan. `conv = none` is the
nil converter pointer stored for an unsupported member (such models are
never returned by a successful analysis). -/
structure SField where
  offset : Nat
  conv : Option ConvId
  pointerIndex : Nat
  name : String
  isPointer : Bool
  flags : SFFlags
  deriving DecidableEq, Repr

/-- `structPointer`: one indirection edge of the plan. -/
structure SPointer where
  parentIndex : Nat
  offset : Nat
  name : String
  deriving DecidableEq, Repr

/-- `StructModel`: the immutable decoding plan. -/
structure SModel where
  fields : List SField
  pointers : List SPointer
  isSimple : Bool
  deriving Repr

/-- Pointer-typed memory: the value `*(*unsafe.Pointer)(base + offset)`
at each address, `none` for a nil pointer. (Pointer cells and scalar
destination cells are modelled as two separate address spaces; the Go
code distinguishes them by the plan's offsets.) -/
abbrev PtrMem := Nat → Option Nat

/-- Scalar destination memory. -/
abbrev ValMem := Nat → Val

/-- Update one destination cell. -/
def writeCell (vm : ValMem) (a : Nat) (v : Val) : ValMem :=
  fun x => if x = a then v else vm x

/-- The error line format of `convert`:
`"Error on <path>: <cause>"`. -/
def errLine (name cause : String) : String := "Error on " ++ name ++ ": " ++ cause

/-- The cause string used for nil indirection pointers. -/
def ptrNotInit : String := "Pointer not initialized"

/-- The pointer-resolution loop of `convert` (the "Determine pointer
indexes" section): walks the edges in order, extending the slot list
(slot 0 is the root destination pointer) and recording one error line
for every edge whose parent is resolved but whose stored pointer is nil.
A slot index outside the list reads as nil (in Go it would be an
out-of-bounds panic; the analyzer's topological invariant makes the two
coincide). -/
def resolveAux (pm : PtrMem) : List SPointer → List (Option Nat) → List String →
    List (Option Nat) × List String
  | [], slots, errs => (slots, errs)
  | p :: rest, slots, errs =>
      match slots[p.parentIndex]?.getD none with
      | none => resolveAux pm rest (slots ++ [none]) errs
      | some b =>
          match pm (b + p.offset) with
          | none => resolveAux pm rest (slots ++ [none]) (errs ++ [errLine p.name ptrNotInit])
          | some a => resolveAux pm rest (slots ++ [some a]) errs

/-- Resolve all slot addresses for one row. -/
def resolveSlots (root : Option Nat) (pm : PtrMem) (ps : List SPointer) :
    List (Option Nat) × List String :=
  resolveAux pm ps [root] []

/-- The conversion function actually invoked for a leaf: in single-row
mode a raw-bytes-flagged leaf is redirected to the owned byte-array
converter (`cvNBA` for the nullable variant, `convByteArray` otherwise). -/
def effConv (isSingleRow : Bool) (f : SField) (c : ConvId) : ConvId :=
  if isSingleRow && f.flags.raw then (if f.flags.nullable then .nByteC else .byteC) else c

/-- The "Fill in data" loop of `convert`: for each leaf in plan order,
skip it if its slot is nil (the edge error already covers it), dereference
pointer leaves (nil dereference records an error line and skips), then run
the (possibly substituted) converter on column `i`'s bytes, recording an
error line on failure. `none` propagates a Go panic from a converter. -/
def fillFields (isSingleRow : Bool) (slots : List (Option Nat)) (pm : PtrMem)
    (raw : List Input) : List SField → Nat → ValMem → Option (ValMem × List String)
  | [], _, vm => some (vm, [])
  | f :: rest, i, vm =>
      match slots[f.pointerIndex]?.getD none with
      | none => fillFields isSingleRow slots pm raw rest (i + 1) vm
      | some base =>
          match (if f.isPointer then pm (base + f.offset) else some (base + f.offset)) with
          | none =>
              (fillFields isSingleRow slots pm raw rest (i + 1) vm).map
                (fun r => (r.1, errLine f.name ptrNotInit :: r.2))
          | some p =>
              match f.conv with
              | none => none
              | some c =>
                  match runConv (effConv isSingleRow f c) (raw[i]?.getD none) (vm p) with
                  | none => none
                  | some (v2, e) =>
                      (fillFields isSingleRow slots pm raw rest (i + 1) (writeCell vm p v2)).map
                        (fun r => (r.1,
                          match e with
                          | none => r.2
                          | some err => errLine f.name err.msg :: r.2))

/-- `RowReader.convert`: resolve the indirection edges, fill every leaf,
and return the final destination memory together with the aggregated
error string (edge errors first, then leaf errors, joined by newlines),
or `none` on a Go panic. The root address corresponds to the
`outPointer` computed from the caller's destinations. -/
def convert (sm : SModel) (raw : List Input) (isSingleRow : Bool) (root : Option Nat)
    (pm : PtrMem) (vm : ValMem) : Option (ValMem × Option String) :=
  let rp := resolveSlots root pm sm.pointers
  (fillFields isSingleRow rp.1 pm raw sm.fields 0 vm).map (fun r =>
    let errs := rp.2 ++ r.2
    (r.1, if errs.isEmpty then none else some (String.intercalate "\n" errs)))

/-! ## The shape analyzer (`modelStruct`)

Go types are embedded as `GoTy`. Field offsets are part of the type
description (Go computes them from the platform's layout rules); the
platform is 64-bit, so `int`/`uint` map to the 64-bit converters and the
pointer size is 8, matching the `unsafe.Sizeof` dispatch in the source.
The fifteen `nulltypes` structs are represented by `nullStructT c` with
`c` the nullable converter the source's `nullTypeStructConverters` map
assigns to them. -/

inductive GoTy where
  | boolT | intT | i8T | i16T | i32T | i64T
  | uintT | u8T | u16T | u32T | u64T
  | f32T | f64T | strT
  | byteSliceT | rawBytesT | timeT
  | nullStructT (c : ConvId)
  | structT (fields : List (String × Nat × GoTy))
  | ptrT (elem : GoTy)
  | badT (desc : String)
  deriving Repr

/-- Go's `Type.String()`, as used in the "invalid types" error lines. -/
def tyString : GoTy → String
  | .boolT => "bool"
  | .intT => "int"
  | .i8T => "int8"
  | .i16T => "int16"
  | .i32T => "int32"
  | .i64T => "int64"
  | .uintT => "uint"
  | .u8T => "uint8"
  | .u16T => "uint16"
  | .u32T => "uint32"
  | .u64T => "uint64"
  | .f32T => "float32"
  | .f64T => "float64"
  | .strT => "string"
  | .byteSliceT => "[]uint8"
  | .rawBytesT => "sql.RawBytes"
  | .timeT => "time.Time"
  | .nullStructT _ => "nulltypes.Null"
  | .structT _ => "struct"
  | .ptrT e => "*" ++ tyString e
  | .badT d => d

/-- Go's `Type.Name()`, as used for the `"Scalar-"` field names. -/
def tyName (t : GoTy) : String := tyString t

/-- The `scalarConverters` array, indexed by `reflect.Kind`: the real
scalar kinds and their converters, with the platform-word types mapped to
the 64-bit converters. -/
def kindConv : GoTy → Option ConvId
  | .boolT => some .boolC
  | .intT => some .i64C
  | .i8T => some .i8C
  | .i16T => some .i16C
  | .i32T => some .i32C
  | .i64T => some .i64C
  | .uintT => some .u64C
  | .u8T => some .u8C
  | .u16T => some .u16C
  | .u32T => some .u32C
  | .u64T => some .u64C
  | .f32T => some .f32C
  | .f64T => some .f64C
  | .strT => some .strC
  | _ => none

/-- `scalarToConversionFunc`: kind lookup first, then the pretend scalar
types — byte slices (`[]byte` owned, `sql.RawBytes` raw-flagged), the
nulltypes structs (nullable flag, raw flag for `NullRawBytes`) and
`time.Time`. -/
def scalarToConversionFunc : GoTy → Option (ConvId × SFFlags)
  | t =>
    match kindConv t with
    | some c => some (c, ⟨false, false⟩)
    | none =>
        match t with
        | .byteSliceT => some (.byteC, ⟨false, false⟩)
        | .rawBytesT => some (.rawC, ⟨true, false⟩)
        | .nullStructT c =>
            if c.baseOf.isSome then some (c, ⟨c = .nRawC, true⟩) else none
        | .timeT => some (.timeC, ⟨false, false⟩)
        | _ => none

/-- `isScalarStruct`: a struct the analyzer treats as a scalar leaf (a
nulltypes struct or `time.Time`). -/
def isScalarStruct : GoTy → Bool
  | .nullStructT c => c.baseOf.isSome
  | .timeT => true
  | _ => false

/-- Accumulator of the `processStruct` walk: the flattened fields, the
indirection edges, and the error lines (the source writes into
preallocated arrays at running positions; sequential append is the same
layout). -/
structure PAcc where
  fields : List SField
  pointers : List SPointer
  errs : List String
  deriving Repr

/-- `processStruct` from `createStructModelFromStruct`: walk the fields
in source order. A pointer-to-struct field appends an indirection edge
(its slot is `pointers.length + 1`, since slot 0 is the root) and
recurses at offset 0 in the new slot; an embedded struct recurses with
the accumulated offset; a recognized scalar becomes a leaf; anything
else records an "invalid type" line and a leaf with a nil converter.
(A nulltypes struct or `time.Time` is caught by
`scalarToConversionFunc` before the struct test, as in the source.) -/
def procFields : List (String × Nat × GoTy) → Nat → Nat → String → PAcc → PAcc
  | [], _, _, _, acc => acc
  | (fname, foff, .ptrT (.structT sub)) :: rest, pOff, pIdx, pName, acc =>
      let e : SPointer := ⟨pIdx, pOff + foff, pName ++ fname⟩
      let acc1 : PAcc := ⟨acc.fields, acc.pointers ++ [e], acc.errs⟩
      let acc2 := procFields sub 0 acc1.pointers.length (pName ++ fname ++ ".") acc1
      procFields rest pOff pIdx pName acc2
  | (fname, foff, .structT sub) :: rest, pOff, pIdx, pName, acc =>
      let acc2 := procFields sub (pOff + foff) pIdx (pName ++ fname ++ ".") acc
      procFields rest pOff pIdx pName acc2
  | (fname, foff, .ptrT fldType) :: rest, pOff, pIdx, pName, acc =>
      -- a pointer field: dereference once (`isPointer = true`)
      match scalarToConversionFunc fldType with
      | some (c, sff) =>
          procFields rest pOff pIdx pName
            ⟨acc.fields ++ [⟨pOff + foff, some c, pIdx, pName ++ fname, true, sff⟩],
             acc.pointers, acc.errs⟩
      | none =>
          procFields rest pOff pIdx pName
            ⟨acc.fields ++ [⟨pOff + foff, none, pIdx, pName ++ fname, true, ⟨false, false⟩⟩],
             acc.pointers,
             acc.errs ++ [pName ++ fname ++ ": " ++ "*" ++ tyString fldType]⟩
  | (fname, foff, fldType) :: rest, pOff, pIdx, pName, acc =>
      match scalarToConversionFunc fldType with
      | some (c, sff) =>
          procFields rest pOff pIdx pName
            ⟨acc.fields ++ [⟨pOff + foff, some c, pIdx, pName ++ fname, false, sff⟩],
             acc.pointers, acc.errs⟩
      | none =>
          procFields rest pOff pIdx pName
            ⟨acc.fields ++ [⟨pOff + foff, none, pIdx, pName ++ fname, false, ⟨false, false⟩⟩],
             acc.pointers,
             acc.errs ++ [pName ++ fname ++ ": " ++ "" ++ tyString fldType]⟩

/-- `createStructModelFromStruct`: run the walk from the root struct; any
accumulated error aborts without a model. -/
def createStructModelFromStruct : GoTy → Except String SModel
  | .structT flds =>
      let acc := procFields flds 0 0 "" ⟨[], [], []⟩
      if acc.errs = [] then .ok ⟨acc.fields, acc.pointers, true⟩
      else .error ("Invalid types found for members:\n" ++ String.intercalate "\n" acc.errs)
  | _ => .error "Not a struct"

/-- `createStructModelFromScalar`: a single leaf at offset 0 in slot 0. -/
def createStructModelFromScalar (t : GoTy) : Except String SModel :=
  match scalarToConversionFunc t with
  | none => .error "Invalid scalar type"
  | some (c, sff) => .ok ⟨[⟨0, some c, 0, "Scalar-" ++ tyName t, false, sff⟩], [], false⟩

/-- Go's `reflect.Kind == Struct` test of `getMultipleStructsAsStructModel`. -/
def isKindStruct : GoTy → Bool
  | .structT _ => true
  | .nullStructT _ => true
  | .timeT => true
  | _ => false

/-- The combination loop of `getMultipleStructsAsStructModel`: each
variable contributes a synthetic root edge `Param#i` at offset
`8 * i` in the pointer table, then its sub-model's fields and edges with
slot indexes shifted past the new root edge. `curPtr` mirrors the
source's `curPointerIndex` counter. -/
def combineModels : Nat → Nat → List SField → List SPointer → List SModel → SModel
  | _, _, fieldsAcc, ptrsAcc, [] => ⟨fieldsAcc, ptrsAcc, false⟩
  | smIndex, curPtr, fieldsAcc, ptrsAcc, sm :: rest =>
      let rootE : SPointer := ⟨0, 8 * smIndex, "Param#" ++ toString smIndex⟩
      let cur1 := curPtr + 1
      let fields1 := sm.fields.map (fun f =>
        ⟨f.offset, f.conv, f.pointerIndex + cur1, f.name, f.isPointer, f.flags⟩)
      let ptrs1 := sm.pointers.map (fun p => ⟨p.parentIndex + cur1, p.offset, p.name⟩)
      combineModels (smIndex + 1) (cur1 + sm.pointers.length)
        (fieldsAcc ++ fields1) (ptrsAcc ++ rootE :: ptrs1) rest

/-- `getMultipleStructsAsStructModel`: model each (already dereferenced)
variable type — plain structs through the struct walk, everything else
through the scalar path — collect per-parameter errors, then combine.
The `remStructs` cache is modelled as transparent recomputation (a cache
hit returns the model that was computed and stored by these same
constructors). -/
def getMultipleStructsAsStructModel (tys : List GoTy) : Except String SModel :=
  let results := tys.map (fun t =>
    if isKindStruct t ∧ ¬ isScalarStruct t then createStructModelFromStruct t
    else createStructModelFromScalar t)
  let errs := (results.enum.filterMap (fun ri =>
    match ri.2 with
    | .error e => some ("Parameter #" ++ toString ri.1 ++ " of type “" ++
        tyString (tys[ri.1]?.getD (.badT "")) ++ "” has errors:\n" ++ e)
    | .ok _ => none))
  if errs = [] then
    .ok (combineModels 0 0 [] [] (results.filterMap (fun r =>
      match r with | .ok sm => some sm | .error _ => none)))
  else .error (String.intercalate "\n\n" errs)

/-! ## The name-matching layer (`RowReaderNamed`) and `DoScan` -/

/-- The per-field data `initNamed` consults (the `structField` variant of
the named-reader sources carries both the full dotted `name` and the
rightmost-segment `baseName`). -/
structure NField where
  name : String
  baseName : String
  pointerIndex : Nat
  deriving DecidableEq, Repr, Inhabited

/-- The mutable state of a `RowReaderNamed` (plus the `rrType` tag of the
underlying `RowReader` and the data the matching reads). -/
structure RRNState where
  isNamed : Bool
  hasAlreadyMatchedCols : Bool
  hasError : Bool
  nfields : List NField
  pointers : List SPointer
  deriving Repr

/-- The inner field scan of the matching loop, for one column name:
walks the unused fields in index order; the first *full* name match wins
immediately (discarding any partial matches seen so far); otherwise
basename matches are counted and the source's running
`partialMatchFieldIndex` keeps the last one. Returns
(full match index, last partial index, partial count). -/
def colScan (colName : String) : List ((String × String) × Bool) → Nat →
    Option Nat × Option Nat × Nat
  | [], _ => (none, none, 0)
  | ((fn, bn), u) :: rest, i =>
      if u then colScan colName rest (i + 1)
      else if fn = colName then (some i, none, 0)
      else
        let r := colScan colName rest (i + 1)
        match r.1 with
        | some _ => r
        | none =>
            if bn = colName then (none, some (r.2.1.getD i), r.2.2 + 1)
            else r

/-- The matching loop of `initNamed`: for each column name in order, take
the full-name match or else require exactly one basename match among the
unused fields; the chosen field is marked used. Returns the
column-to-field index list or the "N matches found" error. -/
def matchLoop (fieldNames fieldBaseNames : List String) :
    List String → List Bool → List Nat → Except String (List Nat)
  | [], _, acc => .ok acc
  | colName :: cols, used, acc =>
      match colScan colName ((fieldNames.zip fieldBaseNames).zip used) 0 with
      | (some k, _, _) => matchLoop fieldNames fieldBaseNames cols (used.set k true) (acc ++ [k])
      | (none, pIdx, cnt) =>
          if cnt ≠ 1 then
            .error (toString cnt ++ " matches found for column “" ++ colName ++ "”")
          else
            let k := pIdx.getD 0
            matchLoop fieldNames fieldBaseNames cols (used.set k true) (acc ++ [k])

/-- `initNamed`: quick exits (not a named reader; the permanent error
latch; already matched), then the one-shot column matching. Every
failure of the first attempt — the column list unavailable, a column
count mismatch, or an ambiguous / missing name — sets both `hasError`
and `hasAlreadyMatchedCols` before returning the error. On success the
fields list is reordered to column order. -/
def initNamed (st : RRNState) (colsRes : Except String (List String)) :
    RRNState × Option String :=
  if ¬ st.isNamed then (st, some "Not a RowReaderNamed")
  else if st.hasError then
    (st, some "RowReaderNamed previously returned an error due to column name problems")
  else if st.hasAlreadyMatchedCols then (st, none)
  else
    match colsRes with
    | .error e => ({ st with hasError := true, hasAlreadyMatchedCols := true }, some e)
    | .ok colNames =>
        if colNames.length ≠ st.nfields.length then
          ({ st with hasError := true, hasAlreadyMatchedCols := true },
            some ("Number of columns in row (" ++ toString colNames.length ++
              ") does not match number of expected fields (" ++
              toString st.nfields.length ++ ")"))
        else
          let fieldNames := st.nfields.map (fun f =>
            if f.baseName = "" then (st.pointers[f.pointerIndex - 1]?.getD ⟨0, 0, ""⟩).name
            else f.name)
          let fieldBaseNames := st.nfields.map (·.baseName)
          match matchLoop fieldNames fieldBaseNames colNames
              (List.replicate fieldNames.length false) [] with
          | .error msg =>
              ({ st with hasError := true, hasAlreadyMatchedCols := true }, some msg)
          | .ok perm =>
              let newFields := perm.map (fun fi => st.nfields[fi]?.getD default)
              ({ st with hasAlreadyMatchedCols := true, nfields := newFields }, none)

/-- The inputs `DoScan` receives from its caller and from the cursor for
one call: the pass-through error, the binding checks, the single-row
cursor advance, the column names, and the results of `rows.Scan` and of
the conversion (the two steps that touch row data and destinations). -/
structure ScanEnv where
  passErr : Option String
  outLenOk : Bool
  runCheck : Bool
  typeErr : Option Nat
  isSingleRow : Bool
  hasNext : Bool
  rowsErr : Option String
  cols : Except String (List String)
  scanErr : Option String
  convRes : Option String

/-- Outcome of one `DoScan` call. The constructors appear in the order
the source can produce them; only `scannedRow` (and the conversion result
it carries) is reached after `rows.Scan` has read row data into the
buffers and `convert` may have written destination fields. -/
inductive ScanOutcome where
  | passthroughErr (e : String)
  | lenMismatch
  | typeMismatch (i : Nat)
  | noRows
  | rowsAdvanceErr (e : String)
  | namedInitErr (e : String)
  | scanErr (e : String)
  | scannedRow (convRes : Option String)
  deriving DecidableEq, Repr

/-- True for the outcomes at or after `rows.Scan`: row data was read and
destination fields may have been written. -/
def ScanOutcome.reachedRowData : ScanOutcome → Bool
  | .scanErr _ => true
  | .scannedRow _ => true
  | _ => false

/-- True when the call returns an error to the caller. -/
def ScanOutcome.isErrorOutcome : ScanOutcome → Bool
  | .scannedRow r => r.isSome
  | _ => true

/-- `DoScan` in the order of the source: pass-through error, length
check, optional type check, single-row `rows.Next`, the named-reader
initialization (run whenever the columns are unmatched or the error
latch is set), then `rows.Scan` and `convert`. The closing of a
single-row cursor has no bearing on the returned state or outcome and is
elided. -/
def doScan (st : RRNState) (env : ScanEnv) : RRNState × ScanOutcome :=
  match env.passErr with
  | some e => (st, .passthroughErr e)
  | none =>
  if ¬ env.outLenOk then (st, .lenMismatch)
  else if env.runCheck ∧ env.typeErr.isSome then (st, .typeMismatch (env.typeErr.getD 0))
  else if env.isSingleRow ∧ ¬ env.hasNext then
    match env.rowsErr with
    | some e => (st, .rowsAdvanceErr e)
    | none => (st, .noRows)
  else
    let step : RRNState × Option String :=
      if st.isNamed ∧ (¬ st.hasAlreadyMatchedCols ∨ st.hasError) then initNamed st env.cols
      else (st, none)
    match step.2 with
    | some e => (step.1, .namedInitErr e)
    | none =>
        match env.scanErr with
        | some e => (step.1, .scanErr e)
        | none => (step.1, .scannedRow env.convRes)

/-! ## Specification-side functions used in theorem statements -/

/-- The error component a converter reports for a column value (the
converters' errors depend only on the input bytes, never on the
destination cell — proved below as `runConv_snd_eq_convErrOf`). -/
def convErrOf (c : ConvId) (i : Input) : Option ConvErr :=
  (runConv c i (.nullV false (.boolV false))).bind (fun r => r.2)

/-- Whether a destination cell has the shape the converter writes
through: a nullable converter casts the cell to a nulltypes struct, the
others write unconditionally. -/
def cellOkB (c : ConvId) (v : Val) : Bool :=
  match c.baseOf, v with
  | some _, .nullV _ _ => true
  | some _, _ => false
  | none, _ => true

/-- The error line (if any) leaf number `i` contributes to a row decode:
nothing if its slot is nil (subsumed by the edge error), the
uninitialized-pointer line for a nil pointer leaf, else its converter's
error on column `i`. -/
def leafSpecLine (isSingleRow : Bool) (slots : List (Option Nat)) (pm : PtrMem)
    (raw : List Input) (i : Nat) (f : SField) : Option String :=
  match slots[f.pointerIndex]?.getD none with
  | none => none
  | some base =>
      if f.isPointer ∧ (pm (base + f.offset)).isNone then some (errLine f.name ptrNotInit)
      else
        match f.conv with
        | none => none
        | some c =>
            (convErrOf (effConv isSingleRow f c) (raw[i]?.getD none)).map
              (fun e => errLine f.name e.msg)

/-- All leaf error lines of a row, in plan order, starting at column
`i0`. -/
def leafLinesSpec (isSingleRow : Bool) (slots : List (Option Nat)) (pm : PtrMem)
    (raw : List Input) (flds : List SField) (i0 : Nat) : List String :=
  (List.enumFrom i0 flds).filterMap (fun p => leafSpecLine isSingleRow slots pm raw p.1 p.2)

/-- The slot value one edge resolves to, given the slots `cur` that
existed when it was processed: nil if its parent slot is nil, otherwise
the pointer loaded at `parent + offset`. -/
def edgeStep (pm : PtrMem) (cur : List (Option Nat)) (p : SPointer) : Option Nat :=
  match cur[p.parentIndex]?.getD none with
  | none => none
  | some b => pm (b + p.offset)

/-- The error line (if any) one edge contributes: nothing when its
parent slot is nil, the uninitialized-pointer line when the parent is
resolved but the stored pointer is nil. `slots` is the full resolved
slot list and `i` the number of slots that existed when the edge was
processed (edge number `j` sees `j + 1` slots). -/
def edgeSpecLine (slots : List (Option Nat)) (pm : PtrMem) (i : Nat) (p : SPointer) :
    Option String :=
  match (slots.take i)[p.parentIndex]?.getD none with
  | none => none
  | some b => if pm (b + p.offset) = none then some (errLine p.name ptrNotInit) else none

/-- All edge error lines, in edge order (edge `j` is numbered `j + 1`,
its prefix length). -/
def edgeLinesSpec (slots : List (Option Nat)) (pm : PtrMem) (ps : List SPointer) :
    List String :=
  (List.enumFrom 1 ps).filterMap (fun ip => edgeSpecLine slots pm ip.1 ip.2)

/-- The conversion-failure lines of a row whose indirection pointers are
all resolved: one line per failing leaf conversion, in plan order,
starting at column `i0`. -/
def convFailLines (isSingleRow : Bool) (raw : List Input) (flds : List SField)
    (i0 : Nat) : List String :=
  (List.enumFrom i0 flds).filterMap (fun p =>
    match p.2.conv with
    | none => none
    | some c =>
        (convErrOf (effConv isSingleRow p.2 c) (raw[p.1]?.getD none)).map
          (fun e => errLine p.2.name e.msg))

/-- Whether a destination value contains a borrowed window into the scan
buffer. -/
def hasBorrowed : Val → Bool
  | .bytesV (.borrowed _) => true
  | .nullV _ v => hasBorrowed v
  | _ => false

/-- The analyzer's flag/converter coherence: the borrowed-window
converters are only ever stored together with the raw-bytes flag
(`scalarToConversionFunc` returns them in one pair). -/
def rawCoherent (f : SField) : Prop :=
  (f.conv = some ConvId.rawC → f.flags.raw = true) ∧
  (f.conv = some ConvId.nRawC → f.flags.raw = true)

instance (f : SField) : Decidable (rawCoherent f) := by
  unfold rawCoherent; infer_instance

/-- The topological invariant of a plan's edge list: the edge at position
`i` refers to slot `parentIndex ≤ i`, i.e. to the root (slot 0) or to the
slot of a strictly earlier edge (edge `j`'s slot is `j + 1`). -/
def PtrInv (ps : List SPointer) : Prop :=
  ∀ (i : Nat) (p : SPointer), ps[i]? = some p → p.parentIndex ≤ i

/-- Decimal value of a digit string. -/
def digitsVal (bs : Bytes) : Nat := bs.foldl (fun a c => a * 10 + (c - 48)) 0

/-- The digits before the (first) dot. -/
def intPartOf (bs : Bytes) : Bytes := bs.takeWhile (fun c => c ≠ 46)

/-- The digits after the dot (empty when there is no dot). -/
def fracPartOf (bs : Bytes) : Bytes := (bs.drop (intPartOf bs).length).drop 1

/-- Fractional seconds as nanoseconds: the fraction truncated to nine
digits and right-padded with zeros. -/
def fracNanos (frac : Bytes) : Nat :=
  digitsVal (frac.take 9) * 10 ^ (9 - (frac.take 9).length)

/-- A buffer `convTime` treats as a Unix timestamp: only ASCII digits
and at most one dot. -/
def isUnixTsBuf (bs : Bytes) : Bool :=
  bs.all (fun c => isDigitB c || c == 46) && (bs.filter (fun c => c == 46)).length ≤ 1


/-- Concrete shapes and reader states used by the witnesses below. -/
def ty9 : GoTy := .structT [("A", 0, .ptrT (.structT [("B", 0, .u64T)])), ("C", 8, .i32T)]

def sm9 : SModel :=
  ⟨[⟨0, some .u64C, 1, "A.B", false, ⟨false, false⟩⟩,
    ⟨8, some .i32C, 0, "C", false, ⟨false, false⟩⟩],
   [⟨0, 0, "A"⟩], true⟩

def sm9m : SModel :=
  ⟨[⟨0, some .u64C, 2, "A.B", false, ⟨false, false⟩⟩,
    ⟨8, some .i32C, 1, "C", false, ⟨false, false⟩⟩,
    ⟨0, some .u64C, 3, "Scalar-uint64", false, ⟨false, false⟩⟩],
   [⟨0, 0, "Param#" ++ toString 0⟩, ⟨1, 0, "A"⟩, ⟨0, 8, "Param#" ++ toString 1⟩],
   false⟩

def st10 : RRNState := ⟨true, false, false, [], []⟩

def st10e : RRNState := ⟨true, true, true, [], []⟩

def env10 : ScanEnv :=
  ⟨none, true, false, none, false, false, none, Except.error "x", none, none⟩

/-! ## Theorems -/

/-- C1 counterexample: the bool parser applied to a non-null but *empty*
buffer does not terminate normally — `in[0]` is an index-out-of-range
panic (`none`), so the parser family is not total on "a contiguous byte
buffer of arbitrary length, including the empty buffer" as claimed. -/
theorem claim_C1_counterexample :
    runConv ConvId.boolC (some []) (Val.boolV false) = none := rfl

/-- C1 (amended): every scalar parser of the family is total — it
returns a result rather than panicking — except the bool parser and its
nullable variant on a non-null empty buffer; every error it reports is a
value-out-of-range or malformed-literal error; and on any non-null
*non-empty* buffer the bool parser sets the destination to whether the
first byte is '1' and never fails. -/
theorem claim_C1_total_amended :
    (∀ c i v, cellOkB c v = true →
      (runConv c i v = none ↔ (c = ConvId.boolC ∨ c = ConvId.nBoolC) ∧ i = some [])) ∧
    (∀ c i v r e, runConv c i v = some (r, some e) →
      e.kind = EKind.outOfRange ∨ e.kind = EKind.malformed) ∧
    (∀ bs v, bs ≠ [] →
      runConv ConvId.boolC (some bs) v = some (Val.boolV (bs.headD 0 == 49), none)) := by
  refine ⟨?_, ?_, ?_⟩
  · intro c i v hok
    cases c <;>
      -- for nullable converters `hok` forces the cell to be a nulltypes
      -- struct; for the base converters it is trivial
      (cases v <;> simp [cellOkB, ConvId.baseOf] at hok <;>
        cases i with
        | none =>
            simp [runConv, ConvId.baseOf, convNullable, runScalar, convBool,
              Option.map_eq_none']
        | some bs =>
            cases bs <;>
              simp [runConv, ConvId.baseOf, convNullable, runScalar, convBool,
                Option.map_eq_none'])
  · intro c i v r e _
    cases h : e.kind
    · exact Or.inl rfl
    · exact Or.inr rfl
  · intro bs v h
    cases bs with
    | nil => exact absurd rfl h
    | cons c t => simp [runConv, ConvId.baseOf, runScalar, convBool]

/-- C1 witness: the amended theorem applied at concrete inputs — the u8
parser is total on the buffer "1", and the bool parser on the buffer
"12" succeeds with a true destination. -/
theorem claim_C1_witness :
    (runConv ConvId.u8C (some [49]) (Val.uintV 0) = none ↔
      (ConvId.u8C = ConvId.boolC ∨ ConvId.u8C = ConvId.nBoolC) ∧
        (some [49] : Input) = some []) ∧
    runConv ConvId.boolC (some [49, 50]) (Val.boolV false) =
      some (Val.boolV ([49, 50].headD 0 == 49), none) :=
  ⟨claim_C1_total_amended.1 ConvId.u8C (some [49]) (Val.uintV 0) (by decide),
   claim_C1_total_amended.2.2 [49, 50] (Val.boolV false) (by decide)⟩

/-- C3 counterexample: the nullable byte-array wrapper on a null input
sets `IsNull` but leaves the wrapped value at its *previous* content, not
at the zero value of its underlying kind. -/
theorem claim_C3_counterexample :
    runConv ConvId.nByteC none (Val.nullV false (Val.bytesV (BytesVal.owned [49]))) =
      some (Val.nullV true (Val.bytesV (BytesVal.owned [49])), none) ∧
    Val.bytesV (BytesVal.owned [49]) ≠ Val.bytesV (BytesVal.owned []) ∧
    Val.bytesV (BytesVal.owned [49]) ≠ Val.bytesV BytesVal.nilSlice := by
  refine ⟨rfl, by decide, by decide⟩

/-- C3 (amended): every nullable wrapper records
`is_null = (buffer == null)` and delegates to its underlying parser on
the value slot; on a null input the value slot therefore receives the
underlying parser's null result — zero for the numeric, bool and string
kinds, the nil window for raw bytes, the epoch instant for timestamps —
except the byte-array wrapper, whose inner parser leaves the value slot
untouched on null. -/
theorem claim_C3_nullable_amended :
    (∀ c b i bv v, ConvId.baseOf c = some b →
      runConv c i (Val.nullV bv v) =
        (runScalar b i v).map (fun r => (Val.nullV i.isNone r.1, r.2))) ∧
    (∀ bits v, convUNum bits none v = (Val.uintV 0, none)) ∧
    (∀ bits v, convINum bits none v = (Val.intV 0, none)) ∧
    (∀ bits v, convFloat bits none v = (Val.floatV (FVal.finite 0), none)) ∧
    (∀ v, convString none v = (Val.strV [], none)) ∧
    (∀ v, convRawBytes none v = (Val.bytesV BytesVal.nilSlice, none)) ∧
    (∀ v, convBool none v = some (Val.boolV false, none)) ∧
    (∀ v, convTime none v = (Val.timeV 0, none)) ∧
    (∀ v, convByteArray none v = (v, none)) := by
  refine ⟨?_, fun _ _ => rfl, fun _ _ => rfl, fun _ _ => rfl, fun _ => rfl,
    fun _ => rfl, fun _ => rfl, fun _ => rfl, fun _ => rfl⟩
  intro c b i bv v h
  cases c <;> simp [ConvId.baseOf] at h <;> subst h <;>
    simp [runConv, ConvId.baseOf, convNullable]

/-- C3 witness: the delegation equation at a concrete wrapper — the
nullable u8 wrapper on the buffer "5". -/
theorem claim_C3_witness :
    runConv ConvId.nU8C (some [53]) (Val.nullV true (Val.uintV 9)) =
      (runScalar ConvId.u8C (some [53]) (Val.uintV 9)).map
        (fun r => (Val.nullV (some [53] : Input).isNone r.1, r.2)) :=
  claim_C3_nullable_amended.1 ConvId.nU8C ConvId.u8C (some [53]) true (Val.uintV 9) rfl

/-- C4 counterexample: in streaming mode (not single-row), a NULL column
into an owned-byte-sequence destination leaves the destination at its
previous content — it is *not* set to the empty sequence. -/
theorem claim_C4_counterexample :
    (convert ⟨[⟨0, some ConvId.byteC, 0, "BA", false, ⟨false, false⟩⟩], [], true⟩
        [none] false (some 0) (fun _ => none)
        (fun _ => Val.bytesV (BytesVal.owned [49]))).map (fun r => (r.1 0, r.2)) =
      some (Val.bytesV (BytesVal.owned [49]), none) ∧
    Val.bytesV (BytesVal.owned [49]) ≠ Val.bytesV (BytesVal.owned []) := by
  exact ⟨rfl, by decide⟩

/-- C4 (amended): every non-nullable scalar parser maps a null input to
the kind's zero value — numerics 0, floats 0.0, bool false, string
empty, raw windows nil, timestamps the epoch — except the
owned-byte-sequence parser, which leaves its destination untouched on
null in *both* modes (so a zero-initialized destination stays empty, but
prior content is preserved). -/
theorem claim_C4_null_amended :
    ∀ v,
      runConv ConvId.u8C none v = some (Val.uintV 0, none) ∧
      runConv ConvId.u16C none v = some (Val.uintV 0, none) ∧
      runConv ConvId.u32C none v = some (Val.uintV 0, none) ∧
      runConv ConvId.u64C none v = some (Val.uintV 0, none) ∧
      runConv ConvId.i8C none v = some (Val.intV 0, none) ∧
      runConv ConvId.i16C none v = some (Val.intV 0, none) ∧
      runConv ConvId.i32C none v = some (Val.intV 0, none) ∧
      runConv ConvId.i64C none v = some (Val.intV 0, none) ∧
      runConv ConvId.f32C none v = some (Val.floatV (FVal.finite 0), none) ∧
      runConv ConvId.f64C none v = some (Val.floatV (FVal.finite 0), none) ∧
      runConv ConvId.strC none v = some (Val.strV [], none) ∧
      runConv ConvId.rawC none v = some (Val.bytesV BytesVal.nilSlice, none) ∧
      runConv ConvId.boolC none v = some (Val.boolV false, none) ∧
      runConv ConvId.timeC none v = some (Val.timeV 0, none) ∧
      runConv ConvId.byteC none v = some (v, none) := by
  intro v
  refine ⟨rfl, rfl, rfl, rfl, rfl, rfl, rfl, rfl, rfl, rfl, rfl, rfl, rfl, rfl, rfl⟩

theorem resolveAux_length (pm : PtrMem) :
    ∀ (ps : List SPointer) (slots0 : List (Option Nat)) (errs0 : List String),
      (resolveAux pm ps slots0 errs0).1.length = slots0.length + ps.length := by
  intro ps
  induction ps with
  | nil => intro slots0 errs0; simp [resolveAux]
  | cons p rest ih =>
      intro slots0 errs0
      cases h : slots0[p.parentIndex]?.getD none with
      | none => simp [resolveAux, h, ih]; omega
      | some b =>
          cases hb : pm (b + p.offset) with
          | none => simp [resolveAux, h, hb, ih]; omega
          | some a => simp [resolveAux, h, hb, ih]; omega

theorem resolveAux_prefix (pm : PtrMem) :
    ∀ (ps : List SPointer) (slots0 : List (Option Nat)) (errs0 : List String),
      slots0 <+: (resolveAux pm ps slots0 errs0).1 := by
  intro ps
  induction ps with
  | nil => intro slots0 errs0; simp [resolveAux]
  | cons p rest ih =>
      intro slots0 errs0
      cases h : slots0[p.parentIndex]?.getD none with
      | none =>
          simp only [resolveAux, h]
          exact (List.prefix_append slots0 [none]).trans (ih (slots0 ++ [none]) errs0)
      | some b =>
          cases hb : pm (b + p.offset) with
          | none =>
              simp only [resolveAux, h, hb]
              exact (List.prefix_append slots0 [none]).trans
                (ih (slots0 ++ [none]) (errs0 ++ [errLine p.name ptrNotInit]))
          | some a =>
              simp only [resolveAux, h, hb]
              exact (List.prefix_append slots0 [some a]).trans (ih (slots0 ++ [some a]) errs0)

theorem resolveAux_take (pm : PtrMem) (ps : List SPointer) (slots0 : List (Option Nat))
    (errs0 : List String) : (resolveAux pm ps slots0 errs0).1.take slots0.length = slots0 := by
  obtain ⟨t, ht⟩ := resolveAux_prefix pm ps slots0 errs0
  rw [← ht, List.take_left]

theorem resolveAux_slot (pm : PtrMem) :
    ∀ (ps : List SPointer) (slots0 : List (Option Nat)) (errs0 : List String)
      (i : Nat) (p : SPointer), ps[i]? = some p →
      (resolveAux pm ps slots0 errs0).1[slots0.length + i]? =
        some (edgeStep pm ((resolveAux pm ps slots0 errs0).1.take (slots0.length + i)) p) := by
  intro ps
  induction ps with
  | nil => intro slots0 errs0 i p hp; simp at hp
  | cons p0 rest ih =>
      intro slots0 errs0 i p hp
      cases i with
      | zero =>
          rw [List.getElem?_cons_zero] at hp
          injection hp with hp0
          subst hp0
          cases h : slots0[p0.parentIndex]?.getD none with
          | none =>
              simp only [resolveAux, h]
              obtain ⟨t, ht⟩ := resolveAux_prefix pm rest (slots0 ++ [none]) errs0
              rw [Nat.add_zero, ← ht]
              have hlt : slots0.length < (slots0 ++ [none]).length := by simp
              rw [List.getElem?_append_left hlt, List.getElem?_concat_length,
                List.append_assoc, List.take_left]
              simp [edgeStep, h]
          | some b =>
              cases hb : pm (b + p0.offset) with
              | none =>
                  simp only [resolveAux, h, hb]
                  obtain ⟨t, ht⟩ := resolveAux_prefix pm rest (slots0 ++ [none])
                    (errs0 ++ [errLine p0.name ptrNotInit])
                  rw [Nat.add_zero, ← ht]
                  have hlt : slots0.length < (slots0 ++ [none]).length := by simp
                  rw [List.getElem?_append_left hlt, List.getElem?_concat_length,
                    List.append_assoc, List.take_left]
                  simp [edgeStep, h, hb]
              | some a =>
                  simp only [resolveAux, h, hb]
                  obtain ⟨t, ht⟩ := resolveAux_prefix pm rest (slots0 ++ [some a]) errs0
                  rw [Nat.add_zero, ← ht]
                  have hlt : slots0.length < (slots0 ++ [some a]).length := by simp
                  rw [List.getElem?_append_left hlt, List.getElem?_concat_length,
                    List.append_assoc, List.take_left]
                  simp [edgeStep, h, hb]
      | succ j =>
          rw [List.getElem?_cons_succ] at hp
          cases h : slots0[p0.parentIndex]?.getD none with
          | none =>
              simp only [resolveAux, h]
              have := ih (slots0 ++ [none]) errs0 j p hp
              have harith : (slots0 ++ [none]).length + j = slots0.length + (j + 1) := by
                simp; omega
              rwa [harith] at this
          | some b =>
              cases hb : pm (b + p0.offset) with
              | none =>
                  simp only [resolveAux, h, hb]
                  have := ih (slots0 ++ [none]) (errs0 ++ [errLine p0.name ptrNotInit]) j p hp
                  have harith : (slots0 ++ [none]).length + j = slots0.length + (j + 1) := by
                    simp; omega
                  rwa [harith] at this
              | some a =>
                  simp only [resolveAux, h, hb]
                  have := ih (slots0 ++ [some a]) errs0 j p hp
                  have harith : (slots0 ++ [some a]).length + j = slots0.length + (j + 1) := by
                    simp; omega
                  rwa [harith] at this

theorem resolveAux_errs (pm : PtrMem) :
    ∀ (ps : List SPointer) (slots0 : List (Option Nat)) (errs0 : List String),
      (resolveAux pm ps slots0 errs0).2 =
        errs0 ++ (List.enumFrom slots0.length ps).filterMap
          (fun ip => edgeSpecLine (resolveAux pm ps slots0 errs0).1 pm ip.1 ip.2) := by
  intro ps
  induction ps with
  | nil => intro slots0 errs0; simp [resolveAux]
  | cons p0 rest ih =>
      intro slots0 errs0
      cases h : slots0[p0.parentIndex]?.getD none with
      | none =>
          simp only [resolveAux, h, List.enumFrom_cons, List.filterMap_cons]
          have ht := resolveAux_take pm rest (slots0 ++ [none]) errs0
          have ht2 : (resolveAux pm rest (slots0 ++ [none]) errs0).1.take slots0.length
              = slots0 := by
            obtain ⟨t, htt⟩ := resolveAux_prefix pm rest (slots0 ++ [none]) errs0
            rw [← htt, List.append_assoc, List.take_left]
          have hline : edgeSpecLine (resolveAux pm rest (slots0 ++ [none]) errs0).1 pm
              slots0.length p0 = none := by
            simp [edgeSpecLine, ht2, h]
          rw [hline, ih (slots0 ++ [none]) errs0]
          have harith : (slots0 ++ [none]).length = slots0.length + 1 := by simp
          rw [harith]
      | some b =>
          cases hb : pm (b + p0.offset) with
          | none =>
              simp only [resolveAux, h, hb, List.enumFrom_cons, List.filterMap_cons]
              have ht2 : (resolveAux pm rest (slots0 ++ [none])
                  (errs0 ++ [errLine p0.name ptrNotInit])).1.take slots0.length = slots0 := by
                obtain ⟨t, htt⟩ := resolveAux_prefix pm rest (slots0 ++ [none])
                  (errs0 ++ [errLine p0.name ptrNotInit])
                rw [← htt, List.append_assoc, List.take_left]
              have hline : edgeSpecLine (resolveAux pm rest (slots0 ++ [none])
                  (errs0 ++ [errLine p0.name ptrNotInit])).1 pm slots0.length p0 =
                  some (errLine p0.name ptrNotInit) := by
                simp [edgeSpecLine, ht2, h, hb]
              rw [hline, ih (slots0 ++ [none]) (errs0 ++ [errLine p0.name ptrNotInit])]
              have harith : (slots0 ++ [none]).length = slots0.length + 1 := by simp
              rw [harith, List.append_assoc]
              simp
          | some a =>
              simp only [resolveAux, h, hb, List.enumFrom_cons, List.filterMap_cons]
              have ht2 : (resolveAux pm rest (slots0 ++ [some a]) errs0).1.take slots0.length
                  = slots0 := by
                obtain ⟨t, htt⟩ := resolveAux_prefix pm rest (slots0 ++ [some a]) errs0
                rw [← htt, List.append_assoc, List.take_left]
              have hline : edgeSpecLine (resolveAux pm rest (slots0 ++ [some a]) errs0).1 pm
                  slots0.length p0 = none := by
                simp [edgeSpecLine, ht2, h, hb]
              rw [hline, ih (slots0 ++ [some a]) errs0]
              have harith : (slots0 ++ [some a]).length = slots0.length + 1 := by simp
              rw [harith]

/-- C6 counterexample: with a two-edge chain `A`, `A.B` where `A`'s
stored pointer is nil, edge `A.B`'s parent slot is nil, the decoder
leaves its slot nil — but it records *no* error for `A.B`'s path: the
error list holds exactly the single line for `A`. The claim's "records
one error for that edge's path" in the parent-null case is false. -/
theorem claim_C6_counterexample :
    resolveSlots (some 100) (fun _ => none) [⟨0, 0, "A"⟩, ⟨1, 0, "A.B"⟩] =
      ([some 100, none, none], ["Error on A: Pointer not initialized"]) ∧
    ((resolveSlots (some 100) (fun _ => none)
        [⟨0, 0, "A"⟩, ⟨1, 0, "A.B"⟩]).1[1]?).getD none = none ∧
    ¬ ("Error on A.B: Pointer not initialized" ∈
        (resolveSlots (some 100) (fun _ => none) [⟨0, 0, "A"⟩, ⟨1, 0, "A.B"⟩]).2) := by
  refine ⟨rfl, rfl, by decide⟩

/-- C6 (amended): slot resolution resolves the edges in order; an edge
whose parent slot is nil leaves its own slot nil and records *no* error
of its own (the ancestor edge where the nil pointer was found already
recorded one); an edge whose parent is resolved but whose stored pointer
is nil records one "Pointer not initialized" line for its debug path and
leaves the slot nil; otherwise the slot receives the loaded pointer.
The error list is exactly the in-order concatenation of these lines. -/
theorem claim_C6_resolution_amended :
    ∀ (pm : PtrMem) (root : Option Nat) (ps : List SPointer),
      (resolveSlots root pm ps).1.length = ps.length + 1 ∧
      (∀ (i : Nat) (p : SPointer), ps[i]? = some p →
        (resolveSlots root pm ps).1[i + 1]? =
          some (edgeStep pm ((resolveSlots root pm ps).1.take (i + 1)) p)) ∧
      (resolveSlots root pm ps).2 = edgeLinesSpec (resolveSlots root pm ps).1 pm ps ∧
      (∀ (i : Nat) (p : SPointer), ps[i]? = some p →
        ((resolveSlots root pm ps).1.take (i + 1))[p.parentIndex]?.getD none = none →
        (resolveSlots root pm ps).1[i + 1]? = some none ∧
        edgeSpecLine (resolveSlots root pm ps).1 pm (i + 1) p = none) ∧
      (∀ (i : Nat) (p : SPointer) (b : Nat), ps[i]? = some p →
        ((resolveSlots root pm ps).1.take (i + 1))[p.parentIndex]?.getD none = some b →
        pm (b + p.offset) = none →
        (resolveSlots root pm ps).1[i + 1]? = some none ∧
        edgeSpecLine (resolveSlots root pm ps).1 pm (i + 1) p =
          some (errLine p.name ptrNotInit)) := by
  intro pm root ps
  have hslot : ∀ (i : Nat) (p : SPointer), ps[i]? = some p →
      (resolveSlots root pm ps).1[i + 1]? =
        some (edgeStep pm ((resolveSlots root pm ps).1.take (i + 1)) p) := by
    intro i p hp
    have := resolveAux_slot pm ps [root] [] i p hp
    simpa [resolveSlots, Nat.add_comm 1 i] using this
  refine ⟨?_, hslot, ?_, ?_, ?_⟩
  · have := resolveAux_length pm ps [root] []
    simpa [resolveSlots, Nat.add_comm] using this
  · have := resolveAux_errs pm ps [root] []
    simpa [resolveSlots, edgeLinesSpec] using this
  · intro i p hp hnull
    refine ⟨?_, ?_⟩
    · rw [hslot i p hp]
      simp [edgeStep, hnull]
    · simp [edgeSpecLine, hnull]
  · intro i p b hp hsome hnil
    refine ⟨?_, ?_⟩
    · rw [hslot i p hp]
      simp [edgeStep, hsome, hnil]
    · simp [edgeSpecLine, hsome, hnil]

/-- C6 witness: the amended theorem applied to a concrete chain with a
resolved first edge and a nil stored pointer on the second. -/
theorem claim_C6_witness :
    (resolveSlots (some 100) (fun a => if a = 100 then some 200 else none)
        [⟨0, 0, "A"⟩, ⟨1, 5, "A.B"⟩]).1[2]? = some none ∧
    edgeSpecLine (resolveSlots (some 100) (fun a => if a = 100 then some 200 else none)
        [⟨0, 0, "A"⟩, ⟨1, 5, "A.B"⟩]).1 (fun a => if a = 100 then some 200 else none)
        2 ⟨1, 5, "A.B"⟩ = some (errLine "A.B" ptrNotInit) :=
  (claim_C6_resolution_amended (fun a => if a = 100 then some 200 else none)
      (some 100) [⟨0, 0, "A"⟩, ⟨1, 5, "A.B"⟩]).2.2.2.2 1 ⟨1, 5, "A.B"⟩ 200
    (by decide) rfl rfl

theorem convUNum_snd (bits : Nat) (i : Input) (v w : Val) :
    (convUNum bits i v).2 = (convUNum bits i w).2 := by
  cases i with
  | none => rfl
  | some bs => simp only [convUNum]; cases parseUintGo bs bits <;> simp

theorem convINum_snd (bits : Nat) (i : Input) (v w : Val) :
    (convINum bits i v).2 = (convINum bits i w).2 := by
  cases i with
  | none => rfl
  | some bs => simp only [convINum]; cases parseIntGo bs bits <;> simp

theorem convFloat_snd (bits : Nat) (i : Input) (v w : Val) :
    (convFloat bits i v).2 = (convFloat bits i w).2 := by
  cases i with
  | none => rfl
  | some bs => simp only [convFloat]; cases parseFloatGo bs bits <;> simp

theorem convTime_snd (i : Input) (v w : Val) : (convTime i v).2 = (convTime i w).2 := by
  cases i with
  | none => rfl
  | some bs =>
      simp only [convTime]
      repeat' split
      all_goals rfl

theorem convString_snd (i : Input) (v : Val) : (convString i v).2 = none := by
  cases i <;> rfl

theorem convRawBytes_snd (i : Input) (v : Val) : (convRawBytes i v).2 = none := by
  cases i <;> rfl

theorem convByteArray_snd (i : Input) (v : Val) : (convByteArray i v).2 = none := by
  cases i <;> rfl

theorem convBool_snd (i : Input) (v : Val) (r : Val × Option ConvErr) :
    convBool i v = some r → r.2 = none := by
  intro h
  cases i with
  | none => cases h; rfl
  | some bs => cases bs with
    | nil => cases h
    | cons c t => cases h; rfl

theorem runScalar_snd (b : ConvId) (i : Input) (v w : Val) (r1 r2 : Val × Option ConvErr) :
    runScalar b i v = some r1 → runScalar b i w = some r2 → r1.2 = r2.2 := by
  intro h1 h2
  cases b <;> simp only [runScalar] at h1 h2 <;>
    first
    | exact Option.noConfusion h1
    | rw [convBool_snd i v r1 h1, convBool_snd i w r2 h2]
    | (cases h1; cases h2;
       first
       | exact convUNum_snd _ i v w
       | exact convINum_snd _ i v w
       | exact convFloat_snd _ i v w
       | exact convTime_snd i v w
       | rw [convString_snd i v, convString_snd i w]
       | rw [convRawBytes_snd i v, convRawBytes_snd i w]
       | rw [convByteArray_snd i v, convByteArray_snd i w])

theorem runScalar_total (b : ConvId) (i : Input) (v : Val) :
    ConvId.baseOf b = none → (b = ConvId.boolC → i ≠ some []) → runScalar b i v ≠ none := by
  intro hb hbool
  cases b <;> simp [ConvId.baseOf] at hb ⊢ <;> try simp [runScalar]
  · -- boolC
    have := hbool rfl
    cases i with
    | none => simp [runScalar, convBool]
    | some bs => cases bs with
      | nil => exact absurd rfl this
      | cons c t => simp [runScalar, convBool]

theorem runConv_snd_indep (c : ConvId) (i : Input) (v w : Val) (r1 r2 : Val × Option ConvErr) :
    runConv c i v = some r1 → runConv c i w = some r2 → r1.2 = r2.2 := by
  intro h1 h2
  cases hb : c.baseOf with
  | none =>
      rw [runConv, hb] at h1 h2
      exact runScalar_snd c i v w r1 r2 h1 h2
  | some b =>
      rw [runConv, hb] at h1 h2
      cases v <;> simp [convNullable] at h1
      cases w <;> simp [convNullable] at h2
      obtain ⟨s1, e1, hs1, hr1⟩ := h1
      obtain ⟨s2, e2, hs2, hr2⟩ := h2
      rw [← hr1, ← hr2]
      simpa using runScalar_snd b i _ _ (s1, e1) (s2, e2) hs1 hs2

theorem runConv_default_isSome (c : ConvId) (i : Input) (v : Val)
    (r : Val × Option ConvErr) (h : runConv c i v = some r) :
    runConv c i (Val.nullV false (Val.boolV false)) ≠ none := by
  cases hb : c.baseOf with
  | none =>
      rw [runConv, hb] at h ⊢
      refine runScalar_total c i _ hb ?_
      intro hc hi
      subst hc; subst hi
      simp [runScalar, convBool] at h
  | some b =>
      rw [runConv, hb] at h ⊢
      cases v <;> simp [convNullable] at h
      obtain ⟨s, e, hs, _⟩ := h
      simp only [convNullable, Option.map_eq_none', ne_eq]
      refine runScalar_total b i _ ?_ ?_
      · cases c <;> simp only [ConvId.baseOf] at hb <;>
          first
          | exact Option.noConfusion hb
          | (injection hb with hbe; subst hbe; rfl)
      · intro hbool hi
        subst hbool; subst hi
        simp [runScalar, convBool] at hs

theorem runConv_snd_eq_convErrOf (c : ConvId) (i : Input) (v : Val)
    (r : Val × Option ConvErr) (h : runConv c i v = some r) : r.2 = convErrOf c i := by
  cases hd : runConv c i (Val.nullV false (Val.boolV false)) with
  | none => exact absurd hd (runConv_default_isSome c i v r h)
  | some r2 =>
      rw [convErrOf, hd]
      exact runConv_snd_indep c i v _ r r2 h hd

theorem fillFields_spec (isS : Bool) (slots : List (Option Nat)) (pm : PtrMem)
    (raw : List Input) :
    ∀ (flds : List SField) (i : Nat) (vm : ValMem) (m : ValMem) (es : List String),
      fillFields isS slots pm raw flds i vm = some (m, es) →
      es = leafLinesSpec isS slots pm raw flds i := by
  intro flds
  induction flds with
  | nil =>
      intro i vm m es h
      simp only [fillFields] at h
      injection h with h
      injection h with _ h2
      simp [leafLinesSpec, ← h2]
  | cons f rest ih =>
      intro i vm m es h
      rw [leafLinesSpec, List.enumFrom_cons, List.filterMap_cons]
      rw [fillFields] at h
      split at h
      case _ hslot =>
        have hl : leafSpecLine isS slots pm raw i f = none := by
          simp [leafSpecLine, hslot]
        rw [hl]
        exact ih (i + 1) vm m es h
      case _ base hslot =>
        split at h
        case _ hptr =>
          simp only [Option.map_eq_some'] at h
          obtain ⟨⟨m2, es2⟩, hfill, hpair⟩ := h
          injection hpair with _ hes
          have hisP : f.isPointer = true := by
            by_contra hcn
            simp only [Bool.not_eq_true] at hcn
            rw [hcn] at hptr
            simp at hptr
          have hpmnone : pm (base + f.offset) = none := by
            rw [hisP] at hptr; simpa using hptr
          have hl : leafSpecLine isS slots pm raw i f =
              some (errLine f.name ptrNotInit) := by
            simp [leafSpecLine, hslot, hisP, hpmnone]
          rw [hl, ← hes, ih (i + 1) vm m2 es2 hfill]
          rfl
        case _ p hptr =>
          split at h
          case _ hc => exact absurd h (by simp)
          case _ c hc =>
            split at h
            case _ hrun => exact absurd h (by simp)
            case _ v2 e hrun =>
              simp only [Option.map_eq_some'] at h
              obtain ⟨⟨m2, es2⟩, hfill, hpair⟩ := h
              injection hpair with _ hes
              have hcond : ¬ (f.isPointer = true ∧
                  (pm (base + f.offset)).isNone = true) := by
                rintro ⟨hp1, hp2⟩
                rw [hp1] at hptr
                rw [Option.isNone_iff_eq_none] at hp2
                rw [hp2] at hptr
                cases hptr
              have herr : e = convErrOf (effConv isS f c) (raw[i]?.getD none) :=
                runConv_snd_eq_convErrOf _ _ _ (v2, e) hrun
              have hl : leafSpecLine isS slots pm raw i f =
                  e.map (fun er => errLine f.name er.msg) := by
                simp only [leafSpecLine, hslot]
                rw [if_neg hcond, hc, herr]
              rw [hl, ← hes, ih (i + 1) (writeCell vm p v2) m2 es2 hfill]
              cases e <;> rfl

theorem leafLines_resolved (isS : Bool) (slots : List (Option Nat)) (pm : PtrMem)
    (raw : List Input) :
    ∀ (flds : List SField) (i0 : Nat),
      (∀ (j : Nat) (f : SField), flds[j]? = some f →
        ∃ b, (slots[f.pointerIndex]?).getD none = some b ∧
          (f.isPointer = true → pm (b + f.offset) ≠ none)) →
      leafLinesSpec isS slots pm raw flds i0 = convFailLines isS raw flds i0 := by
  intro flds
  induction flds with
  | nil => intro i0 _; simp [leafLinesSpec, convFailLines]
  | cons f rest ih =>
      intro i0 hok
      obtain ⟨b, hb, hderef⟩ := hok 0 f (by simp)
      rw [leafLinesSpec, convFailLines, List.enumFrom_cons, List.filterMap_cons,
        List.filterMap_cons]
      have hrest := ih (i0 + 1) (fun j g hj => hok (j + 1) g (by simpa using hj))
      rw [leafLinesSpec] at hrest
      rw [convFailLines] at hrest
      have hcond : ¬ (f.isPointer = true ∧ (pm (b + f.offset)).isNone = true) := by
        rintro ⟨hp1, hp2⟩
        exact (hderef hp1) (Option.isNone_iff_eq_none.mp hp2)
      have hline : leafSpecLine isS slots pm raw i0 f =
          (match f.conv with
           | none => none
           | some c => (convErrOf (effConv isS f c) (raw[i0]?.getD none)).map
               (fun e => errLine f.name e.msg)) := by
        simp only [leafSpecLine, hb]
        rw [if_neg hcond]
      rw [hline, hrest]

/-- C5: with every indirection pointer resolved, the decoder attempts all
leaf conversions (it never stops at the first failure) and, when K of
them fail, returns exactly the K lines
`Error on <path>: <cause>` for those leaves, in plan order, joined by
newlines (success if K = 0). -/
theorem claim_C5_error_aggregation :
    ∀ (sm : SModel) (raw : List Input) (isS : Bool) (root : Option Nat) (pm : PtrMem)
      (vm : ValMem) (m : ValMem) (r : Option String),
      (resolveSlots root pm sm.pointers).2 = [] →
      (∀ (j : Nat) (f : SField), sm.fields[j]? = some f →
        ∃ b, (((resolveSlots root pm sm.pointers).1)[f.pointerIndex]?).getD none = some b ∧
          (f.isPointer = true → pm (b + f.offset) ≠ none)) →
      convert sm raw isS root pm vm = some (m, r) →
      r = (if convFailLines isS raw sm.fields 0 = [] then none
           else some (String.intercalate "\n" (convFailLines isS raw sm.fields 0))) ∧
      (convFailLines isS raw sm.fields 0).length =
        (List.enumFrom 0 sm.fields).countP (fun p =>
          (match p.2.conv with
           | none => none
           | some c =>
               (convErrOf (effConv isS p.2 c) (raw[p.1]?.getD none)).map
                 (fun e => errLine p.2.name e.msg) : Option String).isSome) := by
  intro sm raw isS root pm vm m r hnoEdge hok hconv
  rw [convert] at hconv
  cases hfill : fillFields isS (resolveSlots root pm sm.pointers).1 pm raw sm.fields 0 vm with
  | none => rw [hfill] at hconv; cases hconv
  | some mes =>
      rw [hfill] at hconv
      simp only [Option.map_some'] at hconv
      injection hconv with hconv
      injection hconv with _ hr
      have hes := fillFields_spec isS (resolveSlots root pm sm.pointers).1 pm raw
        sm.fields 0 vm mes.1 mes.2 (by rw [← hfill])
      have hlines := leafLines_resolved isS (resolveSlots root pm sm.pointers).1 pm raw
        sm.fields 0 hok
      constructor
      · rw [← hr, hnoEdge, List.nil_append, hes, hlines]
        by_cases hempty : convFailLines isS raw sm.fields 0 = []
        · simp [hempty]
        · simp [hempty, List.isEmpty_iff]
      · exact List.length_filterMap_eq_countP _ _

/-- C7: if an edge's pointer is nil, the leaves whose slot is nil are
skipped entirely (they contribute no error line), an edge whose parent
slot is nil contributes no error line of its own, and the final error
string is the in-order concatenation of the edge error lines followed by
the leaf error lines — so the single edge error precedes any leaf errors
it subsumes, deterministically. -/
theorem claim_C7_edge_subsumption :
    ∀ (sm : SModel) (raw : List Input) (isS : Bool) (root : Option Nat) (pm : PtrMem)
      (vm : ValMem) (m : ValMem) (r : Option String),
      convert sm raw isS root pm vm = some (m, r) →
      (r = if (resolveSlots root pm sm.pointers).2 ++
            leafLinesSpec isS (resolveSlots root pm sm.pointers).1 pm raw sm.fields 0 = []
          then none
          else some (String.intercalate "\n"
            ((resolveSlots root pm sm.pointers).2 ++
              leafLinesSpec isS (resolveSlots root pm sm.pointers).1 pm raw sm.fields 0))) ∧
      (∀ (i : Nat) (f : SField), sm.fields[i]? = some f →
        (((resolveSlots root pm sm.pointers).1)[f.pointerIndex]?).getD none = none →
        leafSpecLine isS (resolveSlots root pm sm.pointers).1 pm raw i f = none) ∧
      (∀ (i : Nat) (p : SPointer), sm.pointers[i]? = some p →
        (((resolveSlots root pm sm.pointers).1.take (i + 1))[p.parentIndex]?).getD none =
          none →
        edgeSpecLine (resolveSlots root pm sm.pointers).1 pm (i + 1) p = none) ∧
      (resolveSlots root pm sm.pointers).2 =
        edgeLinesSpec (resolveSlots root pm sm.pointers).1 pm sm.pointers := by
  intro sm raw isS root pm vm m r hconv
  rw [convert] at hconv
  cases hfill : fillFields isS (resolveSlots root pm sm.pointers).1 pm raw sm.fields 0 vm with
  | none => rw [hfill] at hconv; cases hconv
  | some mes =>
      rw [hfill] at hconv
      simp only [Option.map_some'] at hconv
      injection hconv with hconv
      injection hconv with _ hr
      have hes := fillFields_spec isS (resolveSlots root pm sm.pointers).1 pm raw
        sm.fields 0 vm mes.1 mes.2 (by rw [← hfill])
      refine ⟨?_, ?_, ?_, ?_⟩
      · rw [← hr, hes]
        by_cases hempty : (resolveSlots root pm sm.pointers).2 ++
            leafLinesSpec isS (resolveSlots root pm sm.pointers).1 pm raw sm.fields 0 = []
        · simp [hempty]
        · simp [hempty, List.isEmpty_iff]
      · intro i f _ hnull
        simp [leafSpecLine, hnull]
      · intro i p _ hnull
        simp [edgeSpecLine, hnull]
      · have := resolveAux_errs pm sm.pointers [root] []
        simpa [resolveSlots, edgeLinesSpec] using this

/-- C5 witness: the aggregation theorem applied to a concrete two-field
row where the first conversion overflows (`"256"` into u8) and the second
succeeds: the result is exactly the one overflow line. -/
theorem claim_C5_witness :
    (some (errLine "U8" ((ConvErr.numErr "ParseUint" [50, 53, 54] EKind.outOfRange).msg)) :
        Option String) =
      (if convFailLines true [some [50, 53, 54], some [53]]
          [⟨0, some ConvId.u8C, 0, "U8", false, ⟨false, false⟩⟩,
           ⟨1, some ConvId.u8C, 0, "V8", false, ⟨false, false⟩⟩] 0 = [] then none
       else some (String.intercalate "\n" (convFailLines true
          [some [50, 53, 54], some [53]]
          [⟨0, some ConvId.u8C, 0, "U8", false, ⟨false, false⟩⟩,
           ⟨1, some ConvId.u8C, 0, "V8", false, ⟨false, false⟩⟩] 0))) ∧
    (convFailLines true [some [50, 53, 54], some [53]]
        [⟨0, some ConvId.u8C, 0, "U8", false, ⟨false, false⟩⟩,
         ⟨1, some ConvId.u8C, 0, "V8", false, ⟨false, false⟩⟩] 0).length =
      (List.enumFrom 0
        [⟨0, some ConvId.u8C, 0, "U8", false, ⟨false, false⟩⟩,
         (⟨1, some ConvId.u8C, 0, "V8", false, ⟨false, false⟩⟩ : SField)]).countP (fun p =>
        (match p.2.conv with
         | none => none
         | some c =>
             (convErrOf (effConv true p.2 c)
               (([some [50, 53, 54], some [53]] : List Input)[p.1]?.getD none)).map
               (fun e => errLine p.2.name e.msg) : Option String).isSome) :=
  claim_C5_error_aggregation
    ⟨[⟨0, some ConvId.u8C, 0, "U8", false, ⟨false, false⟩⟩,
      ⟨1, some ConvId.u8C, 0, "V8", false, ⟨false, false⟩⟩], [], true⟩
    [some [50, 53, 54], some [53]] true (some 0) (fun _ => none) (fun _ => Val.uintV 0)
    (writeCell (writeCell (fun _ => Val.uintV 0) 0 (Val.uintV 0)) 1 (Val.uintV 5))
    (some (errLine "U8" ((ConvErr.numErr "ParseUint" [50, 53, 54] EKind.outOfRange).msg)))
    rfl
    (by
      intro j f hf
      match j with
      | 0 =>
          refine ⟨0, ?_, ?_⟩
          · cases hf; rfl
          · cases hf; intro hfalse; exact Bool.noConfusion hfalse
      | 1 =>
          refine ⟨0, ?_, ?_⟩
          · cases hf; rfl
          · cases hf; intro hfalse; exact Bool.noConfusion hfalse
      | n + 2 => simp at hf)
    rfl

/-- C7 witness: the subsumption theorem applied to a concrete plan where
the single edge `A` has a nil stored pointer: the leaf `A.X` behind it
contributes no error line of its own. -/
theorem claim_C7_witness :
    leafSpecLine true
      (resolveSlots (some 0) (fun _ => none) [⟨0, 4, "A"⟩]).1 (fun _ => none)
      [some [53], some [53]] 0 ⟨0, some ConvId.u8C, 1, "A.X", false, ⟨false, false⟩⟩ = none :=
  (claim_C7_edge_subsumption
    ⟨[⟨0, some ConvId.u8C, 1, "A.X", false, ⟨false, false⟩⟩,
      ⟨0, some ConvId.u8C, 0, "Y", false, ⟨false, false⟩⟩], [⟨0, 4, "A"⟩], true⟩
    [some [53], some [53]] true (some 0) (fun _ => none) (fun _ => Val.uintV 0)
    (writeCell (fun _ => Val.uintV 0) 0 (Val.uintV 5))
    (some (errLine "A" ptrNotInit)) rfl).2.1 0
    ⟨0, some ConvId.u8C, 1, "A.X", false, ⟨false, false⟩⟩ (by simp) rfl

theorem convUNum_fst_noBorrow (bits : Nat) (i : Input) (v : Val)
    (hv : hasBorrowed v = false) : hasBorrowed (convUNum bits i v).1 = false := by
  cases i with
  | none => simp [convUNum, hasBorrowed]
  | some bs => simp only [convUNum]; cases parseUintGo bs bits <;> simp [hasBorrowed, hv]

theorem convINum_fst_noBorrow (bits : Nat) (i : Input) (v : Val)
    (hv : hasBorrowed v = false) : hasBorrowed (convINum bits i v).1 = false := by
  cases i with
  | none => simp [convINum, hasBorrowed]
  | some bs => simp only [convINum]; cases parseIntGo bs bits <;> simp [hasBorrowed, hv]

theorem convFloat_fst_noBorrow (bits : Nat) (i : Input) (v : Val)
    (hv : hasBorrowed v = false) : hasBorrowed (convFloat bits i v).1 = false := by
  cases i with
  | none => simp [convFloat, hasBorrowed]
  | some bs => simp only [convFloat]; cases parseFloatGo bs bits <;> simp [hasBorrowed, hv]

theorem convTime_fst_noBorrow (i : Input) (v : Val)
    (hv : hasBorrowed v = false) : hasBorrowed (convTime i v).1 = false := by
  cases i with
  | none => simp [convTime, hasBorrowed]
  | some bs =>
      simp only [convTime]
      repeat' split
      all_goals simp [hasBorrowed, hv]

theorem runScalar_fst_noBorrow (b : ConvId) (i : Input) (v : Val) (r : Val × Option ConvErr)
    (hb : b ≠ ConvId.rawC) (h : runScalar b i v = some r)
    (hv : hasBorrowed v = false) : hasBorrowed r.1 = false := by
  cases b <;> simp only [runScalar] at h
  case rawC => exact absurd rfl hb
  case boolC =>
      cases i with
      | none => cases h; simp [hasBorrowed]
      | some bs => cases bs with
        | nil => cases h
        | cons c t => cases h; simp [hasBorrowed]
  case u8C => cases h; exact convUNum_fst_noBorrow 8 i v hv
  case u16C => cases h; exact convUNum_fst_noBorrow 16 i v hv
  case u32C => cases h; exact convUNum_fst_noBorrow 32 i v hv
  case u64C => cases h; exact convUNum_fst_noBorrow 64 i v hv
  case i8C => cases h; exact convINum_fst_noBorrow 8 i v hv
  case i16C => cases h; exact convINum_fst_noBorrow 16 i v hv
  case i32C => cases h; exact convINum_fst_noBorrow 32 i v hv
  case i64C => cases h; exact convINum_fst_noBorrow 64 i v hv
  case f32C => cases h; exact convFloat_fst_noBorrow 32 i v hv
  case f64C => cases h; exact convFloat_fst_noBorrow 64 i v hv
  case strC => cases h; cases i <;> simp [convString, hasBorrowed]
  case byteC => cases h; cases i <;> simp [convByteArray, hasBorrowed, hv]
  case timeC => cases h; exact convTime_fst_noBorrow i v hv
  all_goals exact Option.noConfusion h

theorem baseOf_ne_rawC (c : ConvId) (b : ConvId) (hb : ConvId.baseOf c = some b)
    (hc : c ≠ ConvId.nRawC) : b ≠ ConvId.rawC := by
  cases c <;> simp only [ConvId.baseOf] at hb <;>
    first
    | exact Option.noConfusion hb
    | (injection hb with hbe; subst hbe; first | exact absurd rfl hc | simp)

theorem runConv_noBorrow (c : ConvId) (i : Input) (v : Val) (r : Val × Option ConvErr)
    (hc1 : c ≠ ConvId.rawC) (hc2 : c ≠ ConvId.nRawC) (h : runConv c i v = some r)
    (hv : hasBorrowed v = false) : hasBorrowed r.1 = false := by
  cases hb : c.baseOf with
  | none =>
      rw [runConv, hb] at h
      exact runScalar_fst_noBorrow c i v r hc1 h hv
  | some b =>
      rw [runConv, hb] at h
      cases v
      case nullV bn x =>
        simp [convNullable] at h
        obtain ⟨s, e, hs, hr⟩ := h
        rw [← hr]
        have hx : hasBorrowed x = false := by simpa [hasBorrowed] using hv
        have hres := runScalar_fst_noBorrow b i x (s, e) (baseOf_ne_rawC c b hb hc2) hs hx
        simpa [hasBorrowed] using hres
      all_goals simp [convNullable] at h

theorem effConv_ne_raw (f : SField) (c : ConvId)
    (hcoh : rawCoherent f) (hc : f.conv = some c) :
    effConv true f c ≠ ConvId.rawC ∧ effConv true f c ≠ ConvId.nRawC := by
  cases hraw : f.flags.raw with
  | true =>
      cases hfn : f.flags.nullable <;> simp [effConv, hraw, hfn]
  | false =>
      have h1 : c ≠ ConvId.rawC := by
        intro he; subst he
        exact absurd (hcoh.1 hc) (by simp [hraw])
      have h2 : c ≠ ConvId.nRawC := by
        intro he; subst he
        exact absurd (hcoh.2 hc) (by simp [hraw])
      simpa [effConv, hraw] using ⟨h1, h2⟩

theorem fillFields_noBorrow (slots : List (Option Nat)) (pm : PtrMem) (raw : List Input) :
    ∀ (flds : List SField) (i : Nat) (vm : ValMem) (m : ValMem) (es : List String),
      (∀ (j : Nat) (f : SField), flds[j]? = some f → rawCoherent f) →
      (∀ a, hasBorrowed (vm a) = false) →
      fillFields true slots pm raw flds i vm = some (m, es) →
      ∀ a, hasBorrowed (m a) = false := by
  intro flds
  induction flds with
  | nil =>
      intro i vm m es _ hvm h
      simp only [fillFields] at h
      injection h with h
      injection h with h1 _
      rw [← h1]; exact hvm
  | cons f rest ih =>
      intro i vm m es hcoh hvm h
      have hcohf : rawCoherent f := hcoh 0 f (by simp)
      have hcohr : ∀ (j : Nat) (g : SField), rest[j]? = some g → rawCoherent g :=
        fun j g hj => hcoh (j + 1) g (by simpa using hj)
      rw [fillFields] at h
      split at h
      case _ => exact ih (i + 1) vm m es hcohr hvm h
      case _ base hslot =>
        split at h
        case _ hptr =>
            simp only [Option.map_eq_some'] at h
            obtain ⟨⟨m2, es2⟩, hfill, hpair⟩ := h
            injection hpair with h1 _
            rw [← h1]
            exact ih (i + 1) vm m2 es2 hcohr hvm hfill
        case _ p hptr =>
          split at h
          case _ hcv => exact absurd h (by simp)
          case _ c hcv =>
            split at h
            case _ hrun => exact absurd h (by simp)
            case _ v2 e hrun =>
              simp only [Option.map_eq_some'] at h
              obtain ⟨⟨m2, es2⟩, hfill, hpair⟩ := h
              injection hpair with h1 _
              rw [← h1]
              obtain ⟨hne1, hne2⟩ := effConv_ne_raw f c hcohf hcv
              have hwrite : ∀ a, hasBorrowed (writeCell vm p v2 a) = false := by
                intro a
                rw [writeCell]
                by_cases hap : a = p
                · rw [if_pos hap]
                  exact runConv_noBorrow _ _ _ (v2, e) hne1 hne2 hrun (hvm p)
                · rw [if_neg hap]; exact hvm a
              exact ih (i + 1) (writeCell vm p v2) m2 es2 hcohr hwrite hfill

/-- C2: in single-row mode the decoder substitutes the owned byte-array
converter (or its nullable variant) for every leaf flagged as a borrowed
raw window, so a single-row decode never stores a borrowed reference into
the scan buffer: starting from destinations without borrowed windows,
every destination cell after the decode — raw-window leaves included —
is borrow-free (owned or untouched). -/
theorem claim_C2_raw_substitution :
    ∀ (sm : SModel) (raw : List Input) (root : Option Nat) (pm : PtrMem) (vm : ValMem)
      (m : ValMem) (r : Option String),
      (∀ (j : Nat) (f : SField), sm.fields[j]? = some f → rawCoherent f) →
      (∀ a, hasBorrowed (vm a) = false) →
      convert sm raw true root pm vm = some (m, r) →
      (∀ a, hasBorrowed (m a) = false) ∧
      (∀ (f : SField) (c : ConvId), f.flags.raw = true →
        effConv true f c = (if f.flags.nullable then ConvId.nByteC else ConvId.byteC)) := by
  intro sm raw root pm vm m r hcoh hvm hconv
  rw [convert] at hconv
  cases hfill : fillFields true (resolveSlots root pm sm.pointers).1 pm raw sm.fields 0 vm with
  | none => rw [hfill] at hconv; cases hconv
  | some mes =>
      rw [hfill] at hconv
      simp only [Option.map_some'] at hconv
      injection hconv with hconv
      injection hconv with h1 _
      constructor
      · rw [← h1]
        exact fillFields_noBorrow (resolveSlots root pm sm.pointers).1 pm raw sm.fields 0 vm
          mes.1 mes.2 hcoh hvm (by rw [hfill])
      · intro f c hraw
        simp [effConv, hraw]

/-- C2 witness: a single-row decode of a plan with a raw-window leaf and
a nullable raw-window leaf leaves both destinations owned. -/
theorem claim_C2_witness :
    (∀ a, hasBorrowed
      ((writeCell (writeCell (fun a => if a = 1 then Val.nullV false (Val.bytesV BytesVal.nilSlice)
          else Val.bytesV BytesVal.nilSlice) 0 (Val.bytesV (BytesVal.owned [55])))
        1 (Val.nullV false (Val.bytesV (BytesVal.owned [56])))) a) = false) ∧
    (∀ (f : SField) (c : ConvId), f.flags.raw = true →
      effConv true f c = (if f.flags.nullable then ConvId.nByteC else ConvId.byteC)) :=
  claim_C2_raw_substitution
    ⟨[⟨0, some ConvId.rawC, 0, "RB", false, ⟨true, false⟩⟩,
      ⟨1, some ConvId.nRawC, 0, "NRB", false, ⟨true, true⟩⟩], [], true⟩
    [some [55], some [56]] (some 0) (fun _ => none)
    (fun a => if a = 1 then Val.nullV false (Val.bytesV BytesVal.nilSlice)
      else Val.bytesV BytesVal.nilSlice)
    (writeCell (writeCell (fun a => if a = 1 then Val.nullV false (Val.bytesV BytesVal.nilSlice)
        else Val.bytesV BytesVal.nilSlice) 0 (Val.bytesV (BytesVal.owned [55])))
      1 (Val.nullV false (Val.bytesV (BytesVal.owned [56]))))
    none
    (by
      intro j f hf
      match j with
      | 0 => cases hf; exact ⟨fun _ => rfl, fun _ => rfl⟩
      | 1 => cases hf; exact ⟨fun _ => rfl, fun _ => rfl⟩
      | n + 2 => simp at hf)
    (by
      intro a
      by_cases ha : a = 1 <;> simp [ha, hasBorrowed])
    rfl

theorem foldl_digits_ge : ∀ (s : Bytes) (n : Nat),
    n ≤ s.foldl (fun a c => a * 10 + (c - 48)) n := by
  intro s
  induction s with
  | nil => intro n; simp
  | cons c rest ih =>
      intro n
      simp only [List.foldl_cons]
      calc n ≤ n * 10 + (c - 48) := by omega
        _ ≤ _ := ih (n * 10 + (c - 48))

theorem foldl_digits_lt : ∀ (s : Bytes) (n : Nat), s.all isDigitB = true →
    s.foldl (fun a c => a * 10 + (c - 48)) n < (n + 1) * 10 ^ s.length := by
  intro s
  induction s with
  | nil => intro n _; simp
  | cons c rest ih =>
      intro n hall
      simp only [List.all_cons, Bool.and_eq_true] at hall
      have hd : c - 48 ≤ 9 := by
        have := hall.1
        simp [isDigitB] at this
        omega
      simp only [List.foldl_cons, List.length_cons]
      calc rest.foldl (fun a c => a * 10 + (c - 48)) (n * 10 + (c - 48))
          < (n * 10 + (c - 48) + 1) * 10 ^ rest.length := ih _ hall.2
        _ ≤ ((n + 1) * 10) * 10 ^ rest.length := by
            have : n * 10 + (c - 48) + 1 ≤ (n + 1) * 10 := by omega
            exact Nat.mul_le_mul_right _ this
        _ = (n + 1) * 10 ^ (rest.length + 1) := by ring

theorem puLoop_digits : ∀ (s : Bytes) (n maxVal : Nat), s.all isDigitB = true →
    s.foldl (fun a c => a * 10 + (c - 48)) n ≤ maxVal → maxVal ≤ 2 ^ 64 - 1 →
    puLoop maxVal ((2 ^ 64 - 1) / 10 + 1) s n =
      .ok (s.foldl (fun a c => a * 10 + (c - 48)) n) := by
  intro s
  induction s with
  | nil => intro n maxVal _ _ _; simp [puLoop]
  | cons c rest ih =>
      intro n maxVal hall hval hmax
      simp only [List.all_cons, Bool.and_eq_true] at hall
      have hstep : n * 10 + (c - 48) ≤
          rest.foldl (fun a c => a * 10 + (c - 48)) (n * 10 + (c - 48)) :=
        foldl_digits_ge rest _
      simp only [List.foldl_cons] at hval ⊢
      have hn1 : n * 10 + (c - 48) ≤ maxVal := le_trans hstep hval
      have hncut : n < (2 ^ 64 - 1) / 10 + 1 := by
        have h10 : n * 10 ≤ 2 ^ 64 - 1 := by omega
        have := (Nat.le_div_iff_mul_le (by norm_num : 0 < 10)).mpr h10
        omega
      rw [puLoop, if_neg (by simp [hall.1]), if_neg (by omega), if_neg (by omega)]
      exact ih (n * 10 + (c - 48)) maxVal hall.2 hval hmax

theorem parseUintGo_digits (s : Bytes) (hne : s ≠ []) (hall : s.all isDigitB = true)
    (hval : digitsVal s ≤ 2 ^ 64 - 1) : parseUintGo s 64 = .ok (digitsVal s) := by
  cases s with
  | nil => exact absurd rfl hne
  | cons c rest =>
      exact puLoop_digits (c :: rest) 0 (2 ^ 64 - 1) hall hval le_rfl

theorem parseIntGo_digits (s : Bytes) (hne : s ≠ []) (hall : s.all isDigitB = true)
    (hval : digitsVal s < 2 ^ 63) : parseIntGo s 64 = .ok (digitsVal s) := by
  cases s with
  | nil => exact absurd rfl hne
  | cons c rest =>
      have hc : isDigitB c = true := by
        simp only [List.all_cons, Bool.and_eq_true] at hall
        exact hall.1
      have hc43 : ¬ (c = 43 ∨ c = 45) := by
        simp [isDigitB] at hc
        omega
      have hc45 : c ≠ 45 := fun he => hc43 (Or.inr he)
      have hpu : parseUintGo (c :: rest) 64 = .ok (digitsVal (c :: rest)) :=
        parseUintGo_digits (c :: rest) (by simp) hall (by omega)
      have h1 : ¬ (¬ c = 45 ∧ (2 : Nat) ^ (64 - 1) ≤ digitsVal (c :: rest)) := by
        rintro ⟨_, hle⟩
        norm_num at hle
        omega
      have h2 : ¬ (c = 45 ∧ (2 : Nat) ^ (64 - 1) < digitsVal (c :: rest)) :=
        fun hx => hc45 hx.1
      simp only [parseIntGo, if_neg hc43, hpu, if_neg h1, if_neg h2, if_neg hc45]

theorem foldl_digits_append (l1 l2 : Bytes) (n : Nat) :
    (l1 ++ l2).foldl (fun a c => a * 10 + (c - 48)) n =
      l2.foldl (fun a c => a * 10 + (c - 48)) (l1.foldl (fun a c => a * 10 + (c - 48)) n) :=
  List.foldl_append _ _ _ _

theorem foldl_digits_zeros : ∀ (z : Nat) (n : Nat),
    (List.replicate z 48).foldl (fun a c => a * 10 + (c - 48)) n = n * 10 ^ z := by
  intro z
  induction z with
  | zero => intro n; simp
  | succ k ih =>
      intro n
      rw [List.replicate_succ, List.foldl_cons, ih, Nat.sub_self, Nat.add_zero, pow_succ]
      ring

theorem scan_noDot : ∀ (s : Bytes) (loc d : Nat), s.all isDigitB = true →
    scanDigitsDot s loc (some d) = (true, some d) := by
  intro s
  induction s with
  | nil => intro loc d _; simp [scanDigitsDot]
  | cons c rest ih =>
      intro loc d hall
      simp only [List.all_cons, Bool.and_eq_true] at hall
      rw [scanDigitsDot, if_pos (by simp [hall.1])]
      exact ih (loc + 1) d hall.2

theorem filter_dot_cons_digits (rest : Bytes)
    (hall : rest.all (fun c => isDigitB c || c == 46) = true)
    (hflt : ((46 :: rest).filter (fun c => c == 46)).length ≤ 1) :
    rest.all isDigitB = true := by
  rw [List.filter_cons] at hflt
  simp at hflt
  rw [List.all_eq_true] at hall ⊢
  intro x hx
  have := hall x hx
  simp only [Bool.or_eq_true] at this
  cases this with
  | inl h => exact h
  | inr h => exact absurd (by simpa using h) (hflt x hx)

theorem scan_main : ∀ (s : Bytes) (loc : Nat),
    s.all (fun c => isDigitB c || c == 46) = true →
    (s.filter (fun c => c == 46)).length ≤ 1 →
    scanDigitsDot s loc none =
      (true, if 46 ∈ s then some (loc + (s.takeWhile (fun c => c ≠ 46)).length) else none) := by
  intro s
  induction s with
  | nil => intro loc _ _; simp [scanDigitsDot]
  | cons c rest ih =>
      intro loc hall hflt
      simp only [List.all_cons, Bool.and_eq_true] at hall
      by_cases hc : c = 46
      · subst hc
        rw [scanDigitsDot, if_neg (by simp [isDigitB]), if_neg (by simp)]
        rw [scan_noDot rest (loc + 1) loc (filter_dot_cons_digits rest hall.2 hflt)]
        simp
      · have hdig : isDigitB c = true := by
          have := hall.1
          simp only [Bool.or_eq_true] at this
          cases this with
          | inl h => exact h
          | inr h => exact absurd (by simpa using h) hc
        rw [scanDigitsDot, if_pos (by simp [hdig])]
        have hflt2 : (rest.filter (fun c => c == 46)).length ≤ 1 := by
          rw [List.filter_cons] at hflt
          simp [hc] at hflt
          exact hflt
        rw [ih (loc + 1) hall.2 hflt2]
        have hmem : (46 ∈ c :: rest) ↔ (46 ∈ rest) := by
          simp [List.mem_cons]
          intro he
          exact absurd he.symm hc
        by_cases hm : 46 ∈ rest
        · rw [if_pos hm, if_pos (hmem.mpr hm)]
          rw [List.takeWhile_cons, if_pos (by simp [hc])]
          simp
          omega
        · rw [if_neg hm, if_neg (fun hx => hm (hmem.mp hx))]

theorem unixBuf_parts : ∀ (bs : Bytes), isUnixTsBuf bs = true →
    (intPartOf bs).all isDigitB = true ∧ (fracPartOf bs).all isDigitB = true ∧
    (46 ∈ bs → bs = intPartOf bs ++ 46 :: fracPartOf bs) ∧
    (¬ 46 ∈ bs → intPartOf bs = bs ∧ fracPartOf bs = []) := by
  intro bs
  induction bs with
  | nil => intro _; refine ⟨rfl, rfl, by simp, fun _ => ⟨rfl, rfl⟩⟩
  | cons c rest ih =>
      intro h
      rw [isUnixTsBuf, Bool.and_eq_true, decide_eq_true_eq] at h
      obtain ⟨hall, hflt⟩ := h
      simp only [List.all_cons, Bool.and_eq_true] at hall
      by_cases hc : c = 46
      · subst hc
        have hint : intPartOf (46 :: rest) = [] := by
          rw [intPartOf, List.takeWhile_cons, if_neg (by simp)]
        have hfrac : fracPartOf (46 :: rest) = rest := by
          rw [fracPartOf, hint]
          simp
        have hdig := filter_dot_cons_digits rest hall.2 hflt
        refine ⟨by rw [hint]; rfl, by rw [hfrac]; exact hdig, ?_, ?_⟩
        · intro _; rw [hint, hfrac]; rfl
        · intro hm; exact absurd (by simp) hm
      · have hdig : isDigitB c = true := by
          have := hall.1
          simp only [Bool.or_eq_true] at this
          cases this with
          | inl hx => exact hx
          | inr hx => exact absurd (by simpa using hx) hc
        have hint : intPartOf (c :: rest) = c :: intPartOf rest := by
          rw [intPartOf, List.takeWhile_cons, if_pos (by simp [hc])]
          rfl
        have hfrac : fracPartOf (c :: rest) = fracPartOf rest := by
          rw [fracPartOf, fracPartOf, hint]
          simp only [List.length_cons]
          rw [List.drop_succ_cons]
        have hubuf : isUnixTsBuf rest = true := by
          rw [isUnixTsBuf, Bool.and_eq_true, decide_eq_true_eq]
          refine ⟨hall.2, ?_⟩
          rw [List.filter_cons] at hflt
          simp [hc] at hflt
          exact hflt
        obtain ⟨ih1, ih2, ih3, ih4⟩ := ih hubuf
        refine ⟨?_, by rw [hfrac]; exact ih2, ?_, ?_⟩
        · rw [hint]
          simp [ih1, hdig]
        · intro hm
          have hm2 : 46 ∈ rest := by
            rcases List.mem_cons.mp hm with he | hr
            · exact absurd he.symm hc
            · exact hr
          rw [hint, hfrac, List.cons_append]
          rw [← ih3 hm2]
        · intro hm
          have hm2 : ¬ 46 ∈ rest := fun hx => hm (List.mem_cons_of_mem c hx)
          obtain ⟨he1, he2⟩ := ih4 hm2
          rw [hint, hfrac, he1, he2]
          exact ⟨rfl, rfl⟩

/-- C8 counterexample: the two buffers of the claim parse to *different*
instants — the datetime literal denotes 2001-02-03 05:06:07.21 UTC
(981176767.21 s) while the Unix-timestamp buffer denotes
1123571777.62 s (2005-08-09); the buffer that matches the datetime is
"981176767.21". -/
theorem claim_C8_counterexample :
    convTime (some (strBytes "2001-02-03 05:06:07.21")) (Val.boolV false) =
      (Val.timeV 981176767210000000, none) ∧
    convTime (some (strBytes "1123571777.62")) (Val.boolV false) =
      (Val.timeV 1123571777620000000, none) ∧
    (981176767210000000 : Int) ≠ 1123571777620000000 := by
  refine ⟨rfl, rfl, by decide⟩

/-- C8 (amended): null parses to the epoch instant; a buffer of only
digits with at most one dot is interpreted as a Unix timestamp — whole
seconds from the digits before the dot, nanoseconds from the fractional
digits truncated / right-padded to nine digits; any other buffer is
parsed as "YYYY-MM-DD HH:MM:SS[.fffff]" UTC. The concrete buffers
"2001-02-03 05:06:07.21" and "981176767.21" denote the same instant
(981176767.21 s), while "1123571777.62" denotes 1123571777.62 s. -/
theorem claim_C8_timestamp_amended :
    (∀ v, convTime none v = (Val.timeV 0, none)) ∧
    (∀ (bs : Bytes) (v : Val), isUnixTsBuf bs = true → intPartOf bs ≠ [] →
      digitsVal (intPartOf bs) < 2 ^ 63 →
      convTime (some bs) v =
        (Val.timeV ((digitsVal (intPartOf bs) : Int) * 1000000000 +
          (fracNanos (fracPartOf bs) : Int)), none)) ∧
    (∀ v, convTime (some (strBytes "2001-02-03 05:06:07.21")) v =
      (Val.timeV 981176767210000000, none)) ∧
    (∀ v, convTime (some (strBytes "1123571777.62")) v =
      (Val.timeV 1123571777620000000, none)) ∧
    (∀ v, convTime (some (strBytes "981176767.21")) v =
      (Val.timeV 981176767210000000, none)) := by
  refine ⟨fun _ => rfl, ?_, fun _ => rfl, fun _ => rfl, fun _ => rfl⟩
  intro bs v hbuf hne hval
  obtain ⟨hint_dig, hfrac_dig, hdecomp, hnodot⟩ := unixBuf_parts bs hbuf
  rw [isUnixTsBuf, Bool.and_eq_true, decide_eq_true_eq] at hbuf
  obtain ⟨hall, hflt⟩ := hbuf
  by_cases hm : 46 ∈ bs
  · -- buffer with a dot
    set ip := intPartOf bs with hipdef
    set fp := fracPartOf bs with hfpdef
    have hbs := hdecomp hm
    have htw : bs.takeWhile (fun c => c ≠ 46) = ip := rfl
    have hdrop : bs.drop (ip.length + 1) = fp := by
      rw [hbs, show ip ++ 46 :: fp = (ip ++ [46]) ++ fp by simp,
        show ip.length + 1 = (ip ++ [46]).length by simp]
      exact List.drop_left _ _
    have htake : bs.take ip.length = ip := by
      conv_lhs => rw [hbs]
      exact List.take_left _ _
    have hfrac9 : (if 9 < fp.length then fp.take 9 else fp) = fp.take 9 := by
      by_cases h9 : 9 < fp.length
      · rw [if_pos h9]
      · rw [if_neg h9]
        exact (List.take_of_length_le (by omega)).symm
    have hnbdig : ((fp.take 9) ++
        List.replicate (9 - (fp.take 9).length) 48).all isDigitB = true := by
      rw [List.all_append, Bool.and_eq_true]
      refine ⟨?_, ?_⟩
      · rw [List.all_eq_true] at hfrac_dig ⊢
        intro x hx
        exact hfrac_dig x (List.mem_of_mem_take hx)
      · rw [List.all_eq_true]
        intro x hx
        rw [List.eq_of_mem_replicate hx]
        rfl
    have hnblen : ((fp.take 9) ++
        List.replicate (9 - (fp.take 9).length) 48).length = 9 := by
      simp [List.length_take]
    have hnbval : digitsVal ((fp.take 9) ++
        List.replicate (9 - (fp.take 9).length) 48) = fracNanos fp := by
      rw [digitsVal, foldl_digits_append, foldl_digits_zeros, fracNanos, digitsVal]
    have hnbsmall : digitsVal ((fp.take 9) ++
        List.replicate (9 - (fp.take 9).length) 48) < 2 ^ 63 := by
      have hlt := foldl_digits_lt _ 0 hnbdig
      rw [hnblen] at hlt
      rw [digitsVal]
      calc _ < (0 + 1) * 10 ^ 9 := hlt
        _ < 2 ^ 63 := by norm_num
    have hnb : parseIntGo ((fp.take 9) ++
        List.replicate (9 - (fp.take 9).length) 48) 64 =
        .ok ((fracNanos fp : Nat) : Int) := by
      rw [parseIntGo_digits _ (by intro hx; rw [hx] at hnblen; simp at hnblen)
        hnbdig hnbsmall, hnbval]
    have hip : parseIntGo ip 64 = .ok ((digitsVal ip : Nat) : Int) :=
      parseIntGo_digits _ hne hint_dig hval
    simp only [convTime, scan_main bs 0 hall hflt, if_pos hm, Nat.zero_add, htw, hdrop,
      hfrac9, hnb, htake, hip]
  · -- buffer without a dot
    obtain ⟨hip_bs, hfp⟩ := hnodot hm
    have hip : parseIntGo (bs.take bs.length) 64 =
        .ok ((digitsVal (intPartOf bs) : Nat) : Int) := by
      rw [List.take_length]
      conv_lhs => rw [← hip_bs]
      exact parseIntGo_digits _ hne hint_dig hval
    simp only [convTime, scan_main bs 0 hall hflt, if_neg hm, hip, hfp, fracNanos,
      digitsVal]
    simp

/-- C8 witness: the amended theorem's Unix-timestamp clause applied to
the concrete buffer "1123571777.62". -/
theorem claim_C8_witness :
    convTime (some (strBytes "1123571777.62")) (Val.uintV 0) =
      (Val.timeV ((digitsVal (intPartOf (strBytes "1123571777.62")) : Int) * 1000000000 +
        (fracNanos (fracPartOf (strBytes "1123571777.62")) : Int)), none) :=
  claim_C8_timestamp_amended.2.1 (strBytes "1123571777.62") (Val.uintV 0)
    (by decide) (by decide) (by decide)

theorem PtrInv_append_one (l : List SPointer) (p : SPointer)
    (h : PtrInv l) (hp : p.parentIndex ≤ l.length) : PtrInv (l ++ [p]) := by
  intro i q hq
  by_cases hi : i < l.length
  · rw [List.getElem?_append_left hi] at hq
    exact h i q hq
  · have hlen : i < l.length + 1 := by
      have := List.getElem?_eq_some.mp hq
      simpa using this.1
    have hieq : i = l.length := by omega
    subst hieq
    rw [List.getElem?_concat_length] at hq
    injection hq with hq
    subst hq
    exact hp

theorem procFields_inv (flds : List (String × Nat × GoTy)) (pOff pIdx : Nat)
    (pName : String) (acc : PAcc) :
    pIdx ≤ acc.pointers.length → PtrInv acc.pointers →
    PtrInv (procFields flds pOff pIdx pName acc).pointers ∧
    acc.pointers.length ≤ (procFields flds pOff pIdx pName acc).pointers.length := by
  induction flds, pOff, pIdx, pName, acc using procFields.induct with
  | case1 pOff pIdx pName acc =>
      intro _ hinv
      rw [procFields.eq_1]
      exact ⟨hinv, le_rfl⟩
  | case2 fname foff sub rest pOff pIdx pName acc e acc1 acc2 ihsub ihsub2 ihrest =>
      intro hle hinv
      have hinv1 : PtrInv acc1.pointers := PtrInv_append_one acc.pointers e hinv hle
      have hs := ihsub le_rfl hinv1
      have hlen0 : acc.pointers.length ≤ acc1.pointers.length := by
        show acc.pointers.length ≤ (acc.pointers ++ [e]).length
        simp
      have hr := ihrest (le_trans (le_trans hle hlen0) hs.2) hs.1
      rw [procFields.eq_2]
      exact ⟨hr.1, le_trans (le_trans hlen0 hs.2) hr.2⟩
  | case3 fname foff sub rest pOff pIdx pName acc acc2 ihsub ihrest =>
      intro hle hinv
      have hs := ihsub hle hinv
      have hr := ihrest (le_trans hle hs.2) hs.1
      rw [procFields.eq_3]
      exact ⟨hr.1, le_trans hs.2 hr.2⟩
  | case4 fname foff fldType rest pOff pIdx pName acc hx1 c sff hconv ihrest =>
      intro hle hinv
      rw [procFields.eq_4 pOff pIdx pName acc fname foff fldType rest hx1, hconv]
      exact ihrest hle hinv
  | case5 fname foff fldType rest pOff pIdx pName acc hx1 hconv ihrest =>
      intro hle hinv
      rw [procFields.eq_4 pOff pIdx pName acc fname foff fldType rest hx1, hconv]
      exact ihrest hle hinv
  | case6 fname foff fldType rest pOff pIdx pName acc hx1 hx2 hx3 c sff hconv ihrest =>
      intro hle hinv
      rw [procFields.eq_5 pOff pIdx pName acc fname foff fldType rest hx1 hx2 hx3, hconv]
      exact ihrest hle hinv
  | case7 fname foff fldType rest pOff pIdx pName acc hx1 hx2 hx3 hconv ihrest =>
      intro hle hinv
      rw [procFields.eq_5 pOff pIdx pName acc fname foff fldType rest hx1 hx2 hx3, hconv]
      exact ihrest hle hinv

theorem PtrInv_shift_block (ptrsAcc : List SPointer) (rootE : SPointer)
    (ps : List SPointer) (cur1 : Nat)
    (hinv : PtrInv ptrsAcc) (hroot : rootE.parentIndex = 0)
    (hsub : PtrInv ps) (hcur : cur1 = ptrsAcc.length + 1) :
    PtrInv (ptrsAcc ++ rootE ::
      ps.map (fun p => ⟨p.parentIndex + cur1, p.offset, p.name⟩)) := by
  intro i q hq
  by_cases hi : i < ptrsAcc.length
  · rw [List.getElem?_append_left hi] at hq
    exact hinv i q hq
  · push_neg at hi
    rw [List.getElem?_append_right hi] at hq
    cases hd : i - ptrsAcc.length with
    | zero =>
        rw [hd, List.getElem?_cons_zero] at hq
        injection hq with hq
        subst hq
        exact hroot ▸ Nat.zero_le i
    | succ j =>
        rw [hd, List.getElem?_cons_succ, List.getElem?_map] at hq
        cases hp : ps[j]? with
        | none => rw [hp] at hq; cases hq
        | some p =>
            rw [hp] at hq
            have hq2 : some (⟨p.parentIndex + cur1, p.offset, p.name⟩ : SPointer) = some q := hq
            injection hq2 with hq2
            subst hq2
            have hj := hsub j p hp
            show p.parentIndex + cur1 ≤ i
            omega

theorem combineModels_inv (sms : List SModel) :
    ∀ (smIndex curPtr : Nat) (fieldsAcc : List SField) (ptrsAcc : List SPointer),
    curPtr = ptrsAcc.length → PtrInv ptrsAcc →
    (∀ sm ∈ sms, PtrInv sm.pointers) →
    PtrInv (combineModels smIndex curPtr fieldsAcc ptrsAcc sms).pointers := by
  induction sms with
  | nil =>
      intro smIndex curPtr fieldsAcc ptrsAcc hcur hinv hall
      exact hinv
  | cons sm rest ih =>
      intro smIndex curPtr fieldsAcc ptrsAcc hcur hinv hall
      subst hcur
      rw [combineModels]
      apply ih
      · simp only [List.length_append, List.length_cons, List.length_map]
        omega
      · exact PtrInv_shift_block ptrsAcc _ sm.pointers (ptrsAcc.length + 1) hinv rfl
          (hall sm (by simp)) rfl
      · intro s hs
        exact hall s (by simp [hs])

theorem csm_struct_inv (t : GoTy) (sm : SModel)
    (h : createStructModelFromStruct t = .ok sm) : PtrInv sm.pointers := by
  cases t <;> simp only [createStructModelFromStruct] at h <;> try cases h
  case structT flds =>
    split at h
    · injection h with h
      subst h
      exact (procFields_inv flds 0 0 "" ⟨[], [], []⟩ (Nat.zero_le _)
        (fun i p hp => by simp at hp)).1
    · cases h

theorem csm_scalar_inv (t : GoTy) (sm : SModel)
    (h : createStructModelFromScalar t = .ok sm) : PtrInv sm.pointers := by
  rw [createStructModelFromScalar] at h
  split at h
  · cases h
  · injection h with h
    subst h
    intro i p hp
    simp at hp

/-- **C9.** Every decoding plan a successful shape analysis produces —
through `createStructModelFromStruct` (single structure) or
`getMultipleStructsAsStructModel` (multi-variable mode) — has its
indirection edges topologically ordered: the edge at position `i`
references a parent slot index of at most `i` (slot 0 is the root, edge
`i` fills slot `i + 1`), so resolving edges left to right never reads an
unresolved slot. -/
theorem claim_C9_topological_order :
    (∀ (t : GoTy) (sm : SModel),
        createStructModelFromStruct t = Except.ok sm → PtrInv sm.pointers) ∧
    (∀ (tys : List GoTy) (sm : SModel),
        getMultipleStructsAsStructModel tys = Except.ok sm → PtrInv sm.pointers) := by
  refine ⟨fun t sm h => csm_struct_inv t sm h, fun tys sm h => ?_⟩
  simp only [getMultipleStructsAsStructModel] at h
  split at h
  · injection h with h
    subst h
    apply combineModels_inv
    · rfl
    · intro i p hp
      simp at hp
    · intro s hs
      rw [List.mem_filterMap] at hs
      obtain ⟨r, hr, hfr⟩ := hs
      rw [List.mem_map] at hr
      obtain ⟨t0, ht0, hrt⟩ := hr
      subst hrt
      by_cases hk : isKindStruct t0 ∧ ¬ isScalarStruct t0
      · rw [if_pos hk] at hfr
        cases hc : createStructModelFromStruct t0 with
        | error e => rw [hc] at hfr; cases hfr
        | ok sm0 =>
            rw [hc] at hfr
            have hfr2 : some sm0 = some s := hfr
            injection hfr2 with hfr2
            subst hfr2
            exact csm_struct_inv t0 sm0 hc
      · rw [if_neg hk] at hfr
        cases hc : createStructModelFromScalar t0 with
        | error e => rw [hc] at hfr; cases hfr
        | ok sm0 =>
            rw [hc] at hfr
            have hfr2 : some sm0 = some s := hfr
            injection hfr2 with hfr2
            subst hfr2
            exact csm_scalar_inv t0 sm0 hc
  · cases h

/-- C9 witness: both builders at concrete types, with the topological
invariant instantiated on the computed plans. -/
theorem claim_C9_witness :
    (createStructModelFromStruct ty9 = Except.ok sm9 ∧ PtrInv sm9.pointers) ∧
    (getMultipleStructsAsStructModel [ty9, .u64T] = Except.ok sm9m ∧
      PtrInv sm9m.pointers) := by
  have h1 : createStructModelFromStruct ty9 = Except.ok sm9 := by
    simp [ty9, sm9, createStructModelFromStruct, procFields, scalarToConversionFunc,
      kindConv]
  have hsc : createStructModelFromScalar .u64T =
      Except.ok ⟨[⟨0, some .u64C, 0, "Scalar-uint64", false, ⟨false, false⟩⟩], [], false⟩ :=
    rfl
  have hk1 : isKindStruct ty9 = true := rfl
  have hk2 : isScalarStruct ty9 = false := rfl
  have hk3 : isKindStruct GoTy.u64T = false := rfl
  have h2 : getMultipleStructsAsStructModel [ty9, .u64T] = Except.ok sm9m := by
    simp only [getMultipleStructsAsStructModel, List.map]
    rw [if_pos (show isKindStruct ty9 = true ∧ ¬ isScalarStruct ty9 = true from
      ⟨hk1, by rw [hk2]; simp⟩)]
    rw [if_neg (show ¬ (isKindStruct GoTy.u64T = true ∧ ¬ isScalarStruct GoTy.u64T = true)
      from by rw [hk3]; simp)]
    rw [h1, hsc]
    simp [combineModels, sm9, sm9m, List.enum, List.enumFrom, List.filterMap_cons]
  exact ⟨⟨h1, claim_C9_topological_order.1 ty9 sm9 h1⟩,
         ⟨h2, claim_C9_topological_order.2 [ty9, .u64T] sm9m h2⟩⟩

/-- **C10.** The named reader's error latch: (a) whenever the first
column-matching attempt of `initNamed` fails (unfetchable column list,
column-count mismatch, or an ambiguous / missing name), the returned
state has both `hasError` and `hasAlreadyMatchedCols` set and its field
and pointer data unchanged (the matching is not redone later: with
`hasError` set, `initNamed` returns before ever reaching the matching
loop); (b) once `hasError` is set on a named reader, every `DoScan` call
leaves the state unchanged, reaches no row data (so no destination field
is written), and returns an error outcome. -/
theorem claim_C10_named_error_latch :
    (∀ (st : RRNState) (colsRes : Except String (List String)) (st2 : RRNState)
        (e : String),
        st.isNamed = true → st.hasAlreadyMatchedCols = false → st.hasError = false →
        initNamed st colsRes = (st2, some e) →
        st2.hasError = true ∧ st2.hasAlreadyMatchedCols = true ∧
        st2.isNamed = true ∧ st2.nfields = st.nfields ∧ st2.pointers = st.pointers) ∧
    (∀ (st : RRNState) (env : ScanEnv),
        st.isNamed = true → st.hasError = true →
        (doScan st env).1 = st ∧
        (doScan st env).2.reachedRowData = false ∧
        (doScan st env).2.isErrorOutcome = true) := by
  constructor
  · intro st colsRes st2 e hn hm he h
    simp [initNamed, hn, hm, he] at h
    split at h
    · injection h with h1 h2
      subst h1
      simp
    · split at h
      · split at h
        · injection h with h1 h2
          subst h1
          simp
        · injection h with h1 h2
          cases h2
      · injection h with h1 h2
        subst h1
        simp
  · intro st env hn he
    have hstepeq : initNamed st env.cols =
        (st, some "RowReaderNamed previously returned an error due to column name problems") := by
      simp [initNamed, hn, he]
    rcases hds : doScan st env with ⟨st2, out⟩
    simp only [doScan] at hds
    split at hds
    · injection hds with ha hb
      subst ha
      subst hb
      exact ⟨rfl, rfl, rfl⟩
    · split at hds
      · injection hds with ha hb
        subst ha
        subst hb
        exact ⟨rfl, rfl, rfl⟩
      · split at hds
        · injection hds with ha hb
          subst ha
          subst hb
          exact ⟨rfl, rfl, rfl⟩
        · split at hds
          · split at hds
            · injection hds with ha hb
              subst ha
              subst hb
              exact ⟨rfl, rfl, rfl⟩
            · injection hds with ha hb
              subst ha
              subst hb
              exact ⟨rfl, rfl, rfl⟩
          · have hg : st.isNamed = true ∧
                (¬ st.hasAlreadyMatchedCols = true ∨ st.hasError = true) := ⟨hn, Or.inr he⟩
            rw [if_pos hg, hstepeq] at hds
            simp at hds
            obtain ⟨ha, hb⟩ := hds
            subst ha
            subst hb
            exact ⟨rfl, rfl, rfl⟩

/-- C10 witness: a concrete named reader whose first matching attempt
fails (unfetchable column list), then a subsequent scan on the latched
state. -/
theorem claim_C10_witness :
    (st10.isNamed = true ∧ st10.hasAlreadyMatchedCols = false ∧
      st10.hasError = false ∧
      initNamed st10 (Except.error "no columns") = (st10e, some "no columns")) ∧
    (st10e.hasError = true ∧ st10e.hasAlreadyMatchedCols = true ∧
      st10e.isNamed = true ∧ st10e.nfields = st10.nfields ∧
      st10e.pointers = st10.pointers) ∧
    ((doScan st10e env10).1 = st10e ∧
      (doScan st10e env10).2.reachedRowData = false ∧
      (doScan st10e env10).2.isErrorOutcome = true) :=
  ⟨⟨rfl, rfl, rfl, rfl⟩,
   claim_C10_named_error_latch.1 st10 (Except.error "no columns") st10e "no columns"
     rfl rfl rfl rfl,
   claim_C10_named_error_latch.2 st10e env10 rfl rfl⟩

end GoFasterSQL
